import Mathlib

/-!
Shallow embedding of the layout/positioning engine of the `inlyne` markdown
viewer (files `src/positioner.rs`, `src/main.rs`, `src/renderer.rs`,
`src/utils.rs`, `src/table.rs`), together with proofs about the spec's claims.

Rust `f32` arithmetic is embedded as exact rational arithmetic (`ℚ`): every
operation the positioner performs (`+`, `-`, `*`, `/`, `max`, `min`,
comparisons, `clamp`) is exact on the inputs we reason about, and none of the
claims concern rounding.  Rust tuple field `.0` becomes Lean `.1`, and `.1`
becomes `.2`.  External collaborators (text measurement, the taffy grid
solver behind `Table::layout`) are threaded as explicit function parameters,
exactly as `position` threads `&mut TextSystem`; fallible calls return
`Option`, with `none` standing for a propagated `anyhow` error.
-/

namespace Inlyne

/-- `utils.rs`: `Rect { pos: Point, size: Point }` with `Point = (f32, f32)`. -/
structure Rect where
  pos : ℚ × ℚ
  size : ℚ × ℚ
deriving DecidableEq

/-- `utils.rs`: `enum Align { Left, Center, Right }`. -/
inductive Align where
  | left
  | center
  | right
deriving DecidableEq

/-- `crate::text::Text` (layout only reads `text.text`, via
`t.text.trim().is_empty()`). -/
structure Text where
  text : String
deriving DecidableEq

/-- `crate::text::TextBox`: the fields the positioner and the preprocessing
filter read (`texts`, `is_header`, `indent`, `is_anchor`); styling fields are
never consulted by the layout code under verification. -/
structure TextBox where
  texts : List Text
  is_header : Bool
  indent : ℚ
  is_anchor : Option String
deriving DecidableEq

/-- `positioner.rs`: `Spacer { space, visible }`. -/
structure Spacer where
  space : ℚ
  visible : Bool
deriving DecidableEq

/-- Modelled from the spec: `crate::image::Image` is not under `src/`; per the
spec it carries a source, an alignment flag, and an intrinsic size provider.
Layout only consults the alignment flag and the size collaborator, so the
image is embedded as its optional intrinsic dimensions plus alignment. -/
structure Image where
  dimensions : Option (ℚ × ℚ)
  is_aligned : Option Align
deriving DecidableEq

/-- `table.rs`: `Table { rows: Vec<Vec<TextBox>>, caption: Option<TextBox> }`. -/
structure Table where
  rows : List (List TextBox)
  caption : Option TextBox
deriving DecidableEq

mutual
/-- `main.rs`: `enum Element` (the `Section` variant is named `sect` because
`section` is a Lean keyword).  `Row { elements, hidpi_scale }` and
`Section { elements, hidpi_scale, hidden, summary }` are inlined as
constructor arguments in the Rust field order. -/
inductive Element where
  | textBox (tb : TextBox)
  | spacer (sp : Spacer)
  | image (img : Image)
  | table (tbl : Table)
  | row (elements : List PosElement) (hidpi_scale : ℚ)
  | sect (elements : List PosElement) (hidpi_scale : ℚ) (hidden : Bool)
      (summary : Option PosElement)

/-- `positioner.rs`: `Positioned<Element> { inner, bounds: Option<Rect> }`. -/
inductive PosElement where
  | mk (inner : Element) (bounds : Option Rect)
end

def PosElement.inner : PosElement → Element
  | .mk i _ => i

def PosElement.bounds : PosElement → Option Rect
  | .mk _ b => b

@[simp] theorem PosElement.inner_mk (i : Element) (b : Option Rect) :
    (PosElement.mk i b).inner = i := rfl

@[simp] theorem PosElement.bounds_mk (i : Element) (b : Option Rect) :
    (PosElement.mk i b).bounds = b := rfl

/-- `HashMap::insert` on the anchor registry, on an association-list model:
replaces the entry for the key if present, otherwise appends it. -/
def insertAnchor (name : String) (y : ℚ) : List (String × ℚ) → List (String × ℚ)
  | [] => [(name, y)]
  | (n, v) :: rest =>
    if n = name then (name, y) :: rest else (n, v) :: insertAnchor name y rest

/-- `HashMap::get` on the association-list model of the anchor registry. -/
def lookupAnchor (name : String) : List (String × ℚ) → Option ℚ
  | [] => none
  | (n, v) :: rest => if n = name then some v else lookupAnchor name rest

/-- `positioner.rs`: the `Positioner` struct.  The `taffy` handle (the grid
solver behind `Table::layout`) is an external collaborator and is carried by
`LayoutEnv` instead. -/
structure Positioner where
  screen_size : ℚ × ℚ
  reserved_height : ℚ
  hidpi_scale : ℚ
  page_width : ℚ
  page_margin : ℚ
  anchors : List (String × ℚ)

/-- External measurement collaborators, threaded like `&mut TextSystem` and
`&mut Taffy` in Rust.  `textSize tb w zoom` stands for
`tb.size(text_system, (w, f32::INFINITY), zoom)` (the height bound is always
`INFINITY` at the layout call sites, so only the width is passed), and
`tableLayoutSize tbl w zoom` stands for the `.size` of
`tbl.layout(text_system, taffy, (w, f32::INFINITY), zoom)?`, with `none` for
a propagated layout error. -/
structure LayoutEnv where
  textSize : TextBox → ℚ → ℚ → ℚ × ℚ
  tableLayoutSize : Table → ℚ → ℚ → Option (ℚ × ℚ)

/-- Modelled from the spec: the image-size collaborator (`crate::image`, not
under `src/`) yields `None` when the intrinsic size is unknown and otherwise
an aspect-preserving fit of the zoomed intrinsic size within the bounds. -/
def Image.size (img : Image) (bounds : ℚ × ℚ) (zoom : ℚ) : Option (ℚ × ℚ) :=
  match img.dimensions with
  | none => none
  | some (w, h) =>
    let w' := w * zoom
    let h' := h * zoom
    if w' ≤ bounds.1 ∧ h' ≤ bounds.2 then some (w', h')
    else if w' ≤ 0 ∨ h' ≤ 0 then some (0, 0)
    else
      let scale := min (bounds.1 / w') (bounds.2 / h')
      some (w' * scale, h' * scale)

mutual
/-- `Positioner::position` (positioner.rs lines 72–216): positions one element
at the current cursor, storing its rectangle, without (net) advancing
`reserved_height`.  Returns the updated element and positioner, or `none` when
a table-layout error propagates. -/
def positionEl (env : LayoutEnv) (zoom element_padding : ℚ) (st : Positioner)
    (el : PosElement) : Option (PosElement × Positioner) :=
  let centering := max (st.screen_size.1 - st.page_width) 0 / 2
  match el with
  | .mk inner _old =>
    match inner with
    | .textBox tb =>
      let pos : ℚ × ℚ := (st.page_margin + tb.indent + centering, st.reserved_height)
      let size :=
        env.textSize tb (max (st.screen_size.1 - pos.1 - st.page_margin - centering) 0) zoom
      let st' :=
        match tb.is_anchor with
        | some anchor_name =>
          { st with anchors := insertAnchor anchor_name pos.2 st.anchors }
        | none => st
      some (.mk (.textBox tb) (some ⟨pos, size⟩), st')
    | .spacer sp =>
      some (.mk (.spacer sp)
        (some ⟨(0, st.reserved_height), (0, sp.space * st.hidpi_scale * zoom)⟩), st)
    | .image img =>
      let size :=
        (img.size (min st.screen_size.1 st.page_width, st.screen_size.2) zoom).getD (0, 0)
      let rect :=
        match img.is_aligned with
        | some .center =>
          Rect.mk (st.screen_size.1 / 2 - size.1 / 2, st.reserved_height) size
        | _ => Rect.mk (st.page_margin + centering, st.reserved_height) size
      some (.mk (.image img) (some rect), st)
    | .table tbl =>
      let pos : ℚ × ℚ := (st.page_margin + centering, st.reserved_height)
      match env.tableLayoutSize tbl (st.screen_size.1 - pos.1 - st.page_margin - centering)
          zoom with
      | none => none
      | some layoutSize =>
        some (.mk (.table tbl)
          (some ⟨(st.page_margin + centering, st.reserved_height), layoutSize⟩), st)
    | .row els hs =>
      match positionRowGo env zoom element_padding centering st
          (st.page_margin + centering) 0 0 0 els with
      | none => none
      | some (els', reserved_width, inner_reserved_height, max_height, max_width, st') =>
        let max_width := max max_width reserved_width
        let inner_reserved_height :=
          inner_reserved_height + max_height + element_padding * st'.hidpi_scale * zoom
        some (.mk (.row els' hs)
          (some ⟨(st'.page_margin + centering, st'.reserved_height),
                 (max_width - st'.page_margin - centering, inner_reserved_height)⟩), st')
    | .sect els hs hidden summary =>
      let section_pos : ℚ × ℚ := (st.page_margin + centering, st.reserved_height)
      match
        (match summary with
         | none => some ((none : Option PosElement), (0 : ℚ), (0 : ℚ), st)
         | some s =>
           match positionEl env zoom element_padding st s with
           | none => none
           | some (s', st₁) =>
             match s'.bounds with
             | none => none
             | some b =>
               some (some s',
                 max 0 b.size.1,
                 b.size.2 + element_padding * st₁.hidpi_scale * zoom,
                 { st₁ with reserved_height :=
                     st₁.reserved_height + b.size.2
                       + element_padding * st₁.hidpi_scale * zoom })) with
      | none => none
      | some (summary', secW, secH, st₁) =>
        match positionSecGo env zoom element_padding hidden st₁ secW secH els with
        | none => none
        | some (els', secW', secH', st₂) =>
          some (.mk (.sect els' hs hidden summary') (some ⟨section_pos, (secW', secH')⟩),
            { st₂ with reserved_height := section_pos.2 })

/-- The `for element in &mut row.elements` loop of the `Element::Row` arm
(positioner.rs lines 141–168), with the loop-local variables
`reserved_width`, `inner_reserved_height`, `max_height`, `max_width` made
explicit. -/
def positionRowGo (env : LayoutEnv) (zoom element_padding centering : ℚ)
    (st : Positioner) (reserved_width inner_reserved_height max_height max_width : ℚ) :
    List PosElement → Option (List PosElement × ℚ × ℚ × ℚ × ℚ × Positioner)
  | [] => some ([], reserved_width, inner_reserved_height, max_height, max_width, st)
  | e :: rest =>
    match positionEl env zoom element_padding st e with
    | none => none
    | some (e', st₁) =>
      match e'.bounds with
      | none => none
      | some b =>
        let target_width :=
          reserved_width + element_padding * st₁.hidpi_scale * zoom + b.size.1
        if target_width > st₁.screen_size.1 - st₁.page_margin - centering then
          let max_width' := max max_width reserved_width
          let reserved_width' := st₁.page_margin + centering
            + element_padding * st₁.hidpi_scale * zoom + b.size.1
          let inner_reserved_height' := inner_reserved_height + max_height
            + element_padding * st₁.hidpi_scale * zoom
          let max_height' := b.size.2
          let b' : Rect :=
            ⟨(st₁.page_margin + centering, st₁.reserved_height + inner_reserved_height'),
             b.size⟩
          match positionRowGo env zoom element_padding centering st₁
              reserved_width' inner_reserved_height' max_height' max_width' rest with
          | none => none
          | some (rest', rw, ih, mh, mw, stf) =>
            some (.mk e'.inner (some b') :: rest', rw, ih, mh, mw, stf)
        else
          let max_height' := max max_height b.size.2
          let b' : Rect :=
            ⟨(reserved_width, st₁.reserved_height + inner_reserved_height), b.size⟩
          match positionRowGo env zoom element_padding centering st₁
              target_width inner_reserved_height max_height' max_width rest with
          | none => none
          | some (rest', rw, ih, mh, mw, stf) =>
            some (.mk e'.inner (some b') :: rest', rw, ih, mh, mw, stf)

/-- The `for element in &mut section.elements` loop of the `Element::Section`
arm (positioner.rs lines 195–209), accumulating `section_bounds.size` as
`(secW, secH)`; the contribution is suppressed when `hidden` is set. -/
def positionSecGo (env : LayoutEnv) (zoom element_padding : ℚ) (hidden : Bool)
    (st : Positioner) (secW secH : ℚ) :
    List PosElement → Option (List PosElement × ℚ × ℚ × Positioner)
  | [] => some ([], secW, secH, st)
  | e :: rest =>
    match positionEl env zoom element_padding st e with
    | none => none
    | some (e', st₁) =>
      match e'.bounds with
      | none => none
      | some b =>
        let st₂ := { st₁ with reserved_height :=
          st₁.reserved_height + b.size.2 + element_padding * st₁.hidpi_scale * zoom }
        let secW' := if hidden then secW else max secW b.size.1
        let secH' :=
          if hidden then secH
          else secH + b.size.2 + element_padding * st₁.hidpi_scale * zoom
        match positionSecGo env zoom element_padding hidden st₂ secW' secH' rest with
        | none => none
        | some (rest', w, h, stf) => some (e' :: rest', w, h, stf)
end

/-- The padding-suppression check of `Positioner::reposition` (positioner.rs
lines 242–254): skip the inter-element padding exactly when the element just
positioned is a header `TextBox` and the next element is a `Table` whose
caption is `None`, has an empty `texts` list, or has only whitespace-only
texts. -/
def skipPadding (cur : PosElement) (next : Option PosElement) : Bool :=
  match cur.inner with
  | .textBox tb =>
    if tb.is_header then
      match next with
      | some n =>
        match n.inner with
        | .table t =>
          match t.caption with
          | some c => c.texts.isEmpty || c.texts.all (fun x => x.text.trim.isEmpty)
          | none => true
        | _ => false
      | none => false
    else false
  | _ => false

/-- The `for i in 0..elements.len()` loop of `Positioner::reposition`
(positioner.rs lines 228–260): position `elements[i]`, move the cursor to the
element's bottom edge, then add the inter-element padding unless
`skipPadding` fires on `(elements[i], elements[i+1])`. -/
def repoGo (env : LayoutEnv) (zoom element_padding : ℚ) (st : Positioner) :
    List PosElement → Option (List PosElement × Positioner)
  | [] => some ([], st)
  | e :: rest =>
    match positionEl env zoom element_padding st e with
    | none => none
    | some (e', st') =>
      match e'.bounds with
      | none => none
      | some b =>
        let st₁ := { st' with reserved_height := b.pos.2 + b.size.2 }
        let st₂ :=
          if skipPadding e' rest.head? then st₁
          else { st₁ with reserved_height :=
                  st₁.reserved_height + element_padding * st₁.hidpi_scale * zoom }
        match repoGo env zoom element_padding st₂ rest with
        | none => none
        | some (rest', stf) => some (e' :: rest', stf)

/-- `Positioner::reposition` (positioner.rs lines 219–263): reset the cursor to
the top padding, then run the positioning loop over all elements. -/
def reposition (env : LayoutEnv) (zoom element_padding : ℚ) (st : Positioner)
    (elements : List PosElement) : Option (List PosElement × Positioner) :=
  repoGo env zoom element_padding
    { st with reserved_height := element_padding * st.hidpi_scale * zoom } elements

/-- The caption check of `Inlyne::position_queued_elements` (main.rs lines
416–419): a table "has a caption" when the caption is present, its `texts`
list is nonempty, and some text is not whitespace-only. -/
def hasCaption (t : Table) : Bool :=
  match t.caption with
  | some c => !c.texts.isEmpty && c.texts.any (fun x => !x.text.trim.isEmpty)
  | none => false

/-- The `for j in (i + 1)..elements_vec.len()` scan of
`position_queued_elements` (main.rs lines 414–428): the first `Table` at or
after position `j` of the remaining list, with its absolute index; any table
(captioned or not) stops the scan. -/
def firstTableAux : List Element → Nat → Option (Nat × Table)
  | [], _ => none
  | e :: rest, j =>
    match e with
    | .table t => some (j, t)
    | _ => firstTableAux rest (j + 1)

/-- The indices a single header at position `i` marks for removal (main.rs
lines 431–436): everything strictly between the header and the next table,
when that table has no caption. -/
def marksFor (v : List Element) (i : Nat) : List Nat :=
  match firstTableAux (v.drop (i + 1)) (i + 1) with
  | some (j, t) => if !hasCaption t then List.range' (i + 1) (j - (i + 1)) else []
  | none => []

/-- The full `elements_to_remove` list of `position_queued_elements` (main.rs
lines 404–440): for each header-type `TextBox`, the indices `marksFor`
yields, concatenated in index order (duplicates are kept, as in the code). -/
def elementsToRemove (v : List Element) : List Nat :=
  (List.range v.length).flatMap fun i =>
    match v[i]? with
    | some (.textBox tb) => if tb.is_header then marksFor v i else []
    | _ => []

/-- The removal loop of `position_queued_elements` (main.rs lines 443–445):
`Vec::remove` applied at each index in turn; an out-of-range index makes
`Vec::remove` panic, modelled as `none`. -/
def removeAll : List Element → List Nat → Option (List Element)
  | v, [] => some v
  | v, i :: rest =>
    if i < v.length then removeAll (v.eraseIdx i) rest else none

/-- The preprocessing step of `Inlyne::position_queued_elements` (main.rs
lines 401–447): compute `elements_to_remove`, then remove those indices in
reverse push order. -/
def preprocess (v : List Element) : Option (List Element) :=
  removeAll v (elementsToRemove v).reverse

/-- `f32::clamp` (used by `Renderer::set_scroll_y`): restrict `x` to
`[lo, hi]`. -/
def ratClamp (x lo hi : ℚ) : ℚ :=
  if x < lo then lo else if x > hi then hi else x

/-- `renderer.rs`: the `Renderer` fields the scroll logic reads and writes;
the GPU and font-system fields are external collaborators and are omitted. -/
structure Renderer where
  positioner : Positioner
  scroll_y : ℚ
  zoom : ℚ
  element_padding : ℚ

/-- `Renderer::screen_height` (renderer.rs lines 56–58). -/
def Renderer.screen_height (r : Renderer) : ℚ :=
  r.positioner.screen_size.2

/-- `Renderer::set_scroll_y` (renderer.rs lines 1253–1258): clamp the
requested scroll to `[0, max(0, reserved_height − screen_height)]`. -/
def Renderer.set_scroll_y (r : Renderer) (scroll_y : ℚ) : Renderer :=
  { r with scroll_y :=
      ratClamp scroll_y 0 (max (r.positioner.reserved_height - r.screen_height) 0) }

mutual
/-- Erase every computed rectangle from an element, recursively; two elements
with the same erasure carry the same content and differ at most in
previously computed bounds. -/
def eraseB : PosElement → PosElement
  | .mk inner _ => .mk (eraseBEl inner) none

def eraseBEl : Element → Element
  | .textBox tb => .textBox tb
  | .spacer sp => .spacer sp
  | .image img => .image img
  | .table tbl => .table tbl
  | .row els hs => .row (eraseBList els) hs
  | .sect els hs hidden summary => .sect (eraseBList els) hs hidden (eraseBOpt summary)

def eraseBList : List PosElement → List PosElement
  | [] => []
  | e :: rest => eraseB e :: eraseBList rest

def eraseBOpt : Option PosElement → Option PosElement
  | none => none
  | some e => some (eraseB e)
end

mutual
/-- No section anywhere in the element has its `hidden` flag set. -/
def noHidden : PosElement → Bool
  | .mk inner _ => noHiddenEl inner

def noHiddenEl : Element → Bool
  | .textBox _ => true
  | .spacer _ => true
  | .image _ => true
  | .table _ => true
  | .row els _ => noHiddenList els
  | .sect els _ hidden summary => !hidden && noHiddenList els && noHiddenOpt summary

def noHiddenList : List PosElement → Bool
  | [] => true
  | e :: rest => noHidden e && noHiddenList rest

def noHiddenOpt : Option PosElement → Bool
  | none => true
  | some e => noHidden e
end

/-- The height of a positioned element's rectangle (`0` when no bounds were
assigned, which never happens after a successful pass). -/
def heightOf (e : PosElement) : ℚ :=
  match e.bounds with
  | some b => b.size.2
  | none => 0

/-- The total height the spec ascribes to a repositioned list: each element's
computed height plus one inter-element padding (`padpx`), except that the
padding is omitted where the header/uncaptioned-table suppression rule
fires. -/
def totalHeights (padpx : ℚ) : List PosElement → ℚ
  | [] => 0
  | e :: rest =>
    heightOf e + (if skipPadding e rest.head? then 0 else padpx) + totalHeights padpx rest

/-! ### State effects of `position`

`Positioner::position` may add anchor entries, but every other `Positioner`
field — including `reserved_height` — is restored by the time it returns.
The section loop does advance `reserved_height` (its caller resets it). -/

theorem state_master : ∀ n : Nat,
    (∀ inner : Element, sizeOf inner ≤ n →
      ∀ (env : LayoutEnv) (zoom p : ℚ) (st : Positioner) (ob : Option Rect)
        (e' : PosElement) (st' : Positioner),
        positionEl env zoom p st (.mk inner ob) = some (e', st') →
        st' = { st with anchors := st'.anchors })
    ∧ (∀ l : List PosElement, sizeOf l ≤ n →
      ∀ (env : LayoutEnv) (zoom p centering : ℚ) (st : Positioner)
        (rw0 ih0 mh0 mw0 : ℚ) (els' : List PosElement) (rw ih mh mw : ℚ)
        (st' : Positioner),
        positionRowGo env zoom p centering st rw0 ih0 mh0 mw0 l
          = some (els', rw, ih, mh, mw, st') →
        st' = { st with anchors := st'.anchors })
    ∧ (∀ l : List PosElement, sizeOf l ≤ n →
      ∀ (env : LayoutEnv) (zoom p : ℚ) (hidden : Bool) (st : Positioner)
        (w0 h0 : ℚ) (els' : List PosElement) (w hh : ℚ) (st' : Positioner),
        positionSecGo env zoom p hidden st w0 h0 l = some (els', w, hh, st') →
        st' = { st with anchors := st'.anchors, reserved_height := st'.reserved_height }) := by
  intro n
  induction n using Nat.strong_induction_on with
  | _ n IH =>
  refine ⟨?_, ?_, ?_⟩
  · intro inner hsz env zoom p st ob e' st' h
    cases inner with
    | textBox tb =>
      rw [positionEl.eq_1] at h
      simp only [Option.some.injEq, Prod.mk.injEq] at h
      obtain ⟨-, hs⟩ := h
      split at hs <;> rw [← hs]
    | spacer sp =>
      rw [positionEl.eq_2] at h
      simp only [Option.some.injEq, Prod.mk.injEq] at h
      rw [← h.2]
    | image img =>
      rw [positionEl.eq_3] at h
      simp only [Option.some.injEq, Prod.mk.injEq] at h
      rw [← h.2]
    | table tbl =>
      rw [positionEl.eq_4] at h
      split at h
      · exact Option.noConfusion h
      · simp only [Option.some.injEq, Prod.mk.injEq] at h
        rw [← h.2]
    | row els hs =>
      rw [positionEl.eq_5] at h
      split at h
      · exact Option.noConfusion h
      · rename_i r els' rw' ih mh mw stf heq
        simp only [Option.some.injEq, Prod.mk.injEq] at h
        have hlt : sizeOf els < n := by simp at hsz; omega
        have hst := (IH (sizeOf els) hlt).2.1 els le_rfl env zoom p _ st _ _ _ _
          els' rw' ih mh mw stf heq
        rw [← h.2, hst]
    | sect els hs hidden summary =>
      rcases summary with - | ⟨sinner, sob⟩
      · rw [positionEl.eq_6] at h
        split at h
        · exact Option.noConfusion h
        · rename_i r₂ els' secW' secH' st₂ heq₂
          simp only [Option.some.injEq, Prod.mk.injEq] at h
          have hlt : sizeOf els < n := by simp at hsz; omega
          have hst₂ := (IH (sizeOf els) hlt).2.2 els le_rfl env zoom p hidden st 0 0
            els' secW' secH' st₂ heq₂
          rw [← h.2, hst₂]
      · rw [positionEl.eq_7] at h
        split at h
        · exact Option.noConfusion h
        · rename_i r summary' secW secH st₁ heq₁
          split at h
          · exact Option.noConfusion h
          · rename_i r₂ els' secW' secH' st₂ heq₂
            simp only [Option.some.injEq, Prod.mk.injEq] at h
            have hlt : sizeOf els < n := by simp at hsz; omega
            have hst₂ := (IH (sizeOf els) hlt).2.2 els le_rfl env zoom p hidden st₁
              secW secH els' secW' secH' st₂ heq₂
            have hst₁ : st₁ = { st with anchors := st₁.anchors, reserved_height := st₁.reserved_height } := by
              split at heq₁
              · exact Option.noConfusion heq₁
              · rename_i rs s' stₛ heqₛ
                split at heq₁
                · exact Option.noConfusion heq₁
                · simp only [Option.some.injEq, Prod.mk.injEq] at heq₁
                  have hlt₂ : sizeOf sinner < n := by simp at hsz; omega
                  have := (IH (sizeOf sinner) hlt₂).1 sinner le_rfl env zoom p st sob
                    s' stₛ heqₛ
                  rw [← heq₁.2.2.2, this]
            rw [← h.2, hst₂, hst₁]
  · intro l hsz env zoom p centering st rw0 ih0 mh0 mw0 els' rw ih mh mw st' h
    cases l with
    | nil =>
      rw [positionRowGo.eq_1] at h
      simp only [Option.some.injEq, Prod.mk.injEq] at h
      rw [← h.2.2.2.2.2]
    | cons e rest =>
      obtain ⟨einner, eob⟩ := e
      rw [positionRowGo.eq_2] at h
      split at h
      · exact Option.noConfusion h
      · rename_i r e' st₁ heq₁
        split at h
        · exact Option.noConfusion h
        · rename_i b hb
          have hlt₁ : sizeOf einner < n := by simp at hsz; omega
          have hst₁ := (IH (sizeOf einner) hlt₁).1 einner le_rfl env zoom p st eob
            e' st₁ heq₁
          have hltr : sizeOf rest < n := by simp at hsz; omega
          simp only [] at h
          split at h
          · split at h
            · exact Option.noConfusion h
            · rename_i r₂ rest' rw₂ ih₂ mh₂ mw₂ stf heq₂
              simp only [Option.some.injEq, Prod.mk.injEq] at h
              have hstf := (IH (sizeOf rest) hltr).2.1 rest le_rfl env zoom p centering
                st₁ _ _ _ _ rest' rw₂ ih₂ mh₂ mw₂ stf heq₂
              rw [← h.2.2.2.2.2, hstf, hst₁]
          · split at h
            · exact Option.noConfusion h
            · rename_i r₂ rest' rw₂ ih₂ mh₂ mw₂ stf heq₂
              simp only [Option.some.injEq, Prod.mk.injEq] at h
              have hstf := (IH (sizeOf rest) hltr).2.1 rest le_rfl env zoom p centering
                st₁ _ _ _ _ rest' rw₂ ih₂ mh₂ mw₂ stf heq₂
              rw [← h.2.2.2.2.2, hstf, hst₁]
  · intro l hsz env zoom p hidden st w0 h0 els' w hh st' h
    cases l with
    | nil =>
      rw [positionSecGo.eq_1] at h
      simp only [Option.some.injEq, Prod.mk.injEq] at h
      rw [← h.2.2.2]
    | cons e rest =>
      obtain ⟨einner, eob⟩ := e
      rw [positionSecGo.eq_2] at h
      split at h
      · exact Option.noConfusion h
      · rename_i r e' st₁ heq₁
        split at h
        · exact Option.noConfusion h
        · rename_i b hb
          simp only [] at h
          generalize (if hidden then w0 else w0 ⊔ b.size.1) = W at h
          generalize (if hidden then h0 else h0 + b.size.2 + p * st₁.hidpi_scale * zoom) = H at h
          split at h
          · exact Option.noConfusion h
          · rename_i r₂ rest' w₂ h₂ stf heq₂
            simp only [Option.some.injEq, Prod.mk.injEq] at h
            have hlt₁ : sizeOf einner < n := by simp at hsz; omega
            have hst₁ := (IH (sizeOf einner) hlt₁).1 einner le_rfl env zoom p st eob
              e' st₁ heq₁
            have hltr : sizeOf rest < n := by simp at hsz; omega
            have hstf := (IH (sizeOf rest) hltr).2.2 rest le_rfl env zoom p hidden _
              W H rest' w₂ h₂ stf heq₂
            rw [← h.2.2.2, hstf, hst₁]

/-- `Positioner::position` leaves every `Positioner` field except `anchors`
unchanged (the section arm restores `reserved_height` before returning). -/
theorem positionEl_state (env : LayoutEnv) (zoom p : ℚ) (st : Positioner)
    (el e' : PosElement) (st' : Positioner)
    (h : positionEl env zoom p st el = some (e', st')) :
    st' = { st with anchors := st'.anchors } := by
  obtain ⟨inner, ob⟩ := el
  exact (state_master (sizeOf inner)).1 inner le_rfl env zoom p st ob e' st' h

/-- The row loop of `Positioner::position` leaves every `Positioner` field
except `anchors` unchanged. -/
theorem positionRowGo_state (env : LayoutEnv) (zoom p centering : ℚ) (st : Positioner)
    (rw0 ih0 mh0 mw0 : ℚ) (l els' : List PosElement) (rw ih mh mw : ℚ) (st' : Positioner)
    (h : positionRowGo env zoom p centering st rw0 ih0 mh0 mw0 l
        = some (els', rw, ih, mh, mw, st')) :
    st' = { st with anchors := st'.anchors } :=
  (state_master (sizeOf l)).2.1 l le_rfl env zoom p centering st rw0 ih0 mh0 mw0
    els' rw ih mh mw st' h

/-- The section loop of `Positioner::position` leaves every `Positioner` field
except `anchors` and `reserved_height` unchanged. -/
theorem positionSecGo_state (env : LayoutEnv) (zoom p : ℚ) (hidden : Bool)
    (st : Positioner) (w0 h0 : ℚ) (l els' : List PosElement) (w hh : ℚ) (st' : Positioner)
    (h : positionSecGo env zoom p hidden st w0 h0 l = some (els', w, hh, st')) :
    st' = { st with anchors := st'.anchors, reserved_height := st'.reserved_height } :=
  (state_master (sizeOf l)).2.2 l le_rfl env zoom p hidden st w0 h0 els' w hh st' h

/-! ### Content preservation

Positioning recomputes every rectangle but never changes any element's
content: the output erases (via `eraseB`) to the same value as the input. -/

theorem erase_master : ∀ n : Nat,
    (∀ inner : Element, sizeOf inner ≤ n →
      ∀ (env : LayoutEnv) (zoom p : ℚ) (st : Positioner) (ob : Option Rect)
        (e' : PosElement) (st' : Positioner),
        positionEl env zoom p st (.mk inner ob) = some (e', st') →
        eraseB e' = eraseB (.mk inner ob))
    ∧ (∀ l : List PosElement, sizeOf l ≤ n →
      ∀ (env : LayoutEnv) (zoom p centering : ℚ) (st : Positioner)
        (rw0 ih0 mh0 mw0 : ℚ) (els' : List PosElement) (rw ih mh mw : ℚ)
        (st' : Positioner),
        positionRowGo env zoom p centering st rw0 ih0 mh0 mw0 l
          = some (els', rw, ih, mh, mw, st') →
        eraseBList els' = eraseBList l)
    ∧ (∀ l : List PosElement, sizeOf l ≤ n →
      ∀ (env : LayoutEnv) (zoom p : ℚ) (hidden : Bool) (st : Positioner)
        (w0 h0 : ℚ) (els' : List PosElement) (w hh : ℚ) (st' : Positioner),
        positionSecGo env zoom p hidden st w0 h0 l = some (els', w, hh, st') →
        eraseBList els' = eraseBList l) := by
  intro n
  induction n using Nat.strong_induction_on with
  | _ n IH =>
  refine ⟨?_, ?_, ?_⟩
  · intro inner hsz env zoom p st ob e' st' h
    cases inner with
    | textBox tb =>
      rw [positionEl.eq_1] at h
      simp only [Option.some.injEq, Prod.mk.injEq] at h
      rw [← h.1]
      simp [eraseB, eraseBEl]
    | spacer sp =>
      rw [positionEl.eq_2] at h
      simp only [Option.some.injEq, Prod.mk.injEq] at h
      rw [← h.1]
      simp [eraseB, eraseBEl]
    | image img =>
      rw [positionEl.eq_3] at h
      simp only [Option.some.injEq, Prod.mk.injEq] at h
      rw [← h.1]
      simp [eraseB, eraseBEl]
    | table tbl =>
      rw [positionEl.eq_4] at h
      split at h
      · exact Option.noConfusion h
      · simp only [Option.some.injEq, Prod.mk.injEq] at h
        rw [← h.1]
        simp [eraseB, eraseBEl]
    | row els hs =>
      rw [positionEl.eq_5] at h
      split at h
      · exact Option.noConfusion h
      · rename_i r els' rw' ih mh mw stf heq
        simp only [Option.some.injEq, Prod.mk.injEq] at h
        have hlt : sizeOf els < n := by simp at hsz; omega
        have he := (IH (sizeOf els) hlt).2.1 els le_rfl env zoom p _ st _ _ _ _
          els' rw' ih mh mw stf heq
        rw [← h.1]
        simp [eraseB, eraseBEl, he]
    | sect els hs hidden summary =>
      rcases summary with - | ⟨sinner, sob⟩
      · rw [positionEl.eq_6] at h
        split at h
        · exact Option.noConfusion h
        · rename_i r₂ els' secW' secH' st₂ heq₂
          simp only [Option.some.injEq, Prod.mk.injEq] at h
          have hlt : sizeOf els < n := by simp at hsz; omega
          have he := (IH (sizeOf els) hlt).2.2 els le_rfl env zoom p hidden st 0 0
            els' secW' secH' st₂ heq₂
          rw [← h.1]
          simp [eraseB, eraseBEl, eraseBOpt, he]
      · rw [positionEl.eq_7] at h
        split at h
        · exact Option.noConfusion h
        · rename_i r summary' secW secH st₁ heq₁
          split at h
          · exact Option.noConfusion h
          · rename_i r₂ els' secW' secH' st₂ heq₂
            simp only [Option.some.injEq, Prod.mk.injEq] at h
            have hlt : sizeOf els < n := by simp at hsz; omega
            have he := (IH (sizeOf els) hlt).2.2 els le_rfl env zoom p hidden st₁
              secW secH els' secW' secH' st₂ heq₂
            have hsum : eraseBOpt summary' = eraseBOpt (some (.mk sinner sob)) := by
              split at heq₁
              · exact Option.noConfusion heq₁
              · rename_i rs s' stₛ heqₛ
                split at heq₁
                · exact Option.noConfusion heq₁
                · simp only [Option.some.injEq, Prod.mk.injEq] at heq₁
                  have hlt₂ : sizeOf sinner < n := by simp at hsz; omega
                  have := (IH (sizeOf sinner) hlt₂).1 sinner le_rfl env zoom p st sob
                    s' stₛ heqₛ
                  rw [← heq₁.1]
                  simp [eraseBOpt, this]
            rw [← h.1]
            simp only [eraseB, eraseBEl, he, hsum]
  · intro l hsz env zoom p centering st rw0 ih0 mh0 mw0 els' rw ih mh mw st' h
    cases l with
    | nil =>
      rw [positionRowGo.eq_1] at h
      simp only [Option.some.injEq, Prod.mk.injEq] at h
      rw [← h.1]
    | cons e rest =>
      obtain ⟨einner, eob⟩ := e
      rw [positionRowGo.eq_2] at h
      split at h
      · exact Option.noConfusion h
      · rename_i r e' st₁ heq₁
        split at h
        · exact Option.noConfusion h
        · rename_i b hb
          have hlt₁ : sizeOf einner < n := by simp at hsz; omega
          have he₁ := (IH (sizeOf einner) hlt₁).1 einner le_rfl env zoom p st eob
            e' st₁ heq₁
          have hltr : sizeOf rest < n := by simp at hsz; omega
          simp only [] at h
          split at h
          · split at h
            · exact Option.noConfusion h
            · rename_i r₂ rest' rw₂ ih₂ mh₂ mw₂ stf heq₂
              simp only [Option.some.injEq, Prod.mk.injEq] at h
              have her := (IH (sizeOf rest) hltr).2.1 rest le_rfl env zoom p centering
                st₁ _ _ _ _ rest' rw₂ ih₂ mh₂ mw₂ stf heq₂
              rw [← h.1]
              simp only [eraseBList, List.cons.injEq]
              refine ⟨?_, her⟩
              obtain ⟨e'i, e'b⟩ := e'
              simpa [eraseB, PosElement.inner] using he₁
          · split at h
            · exact Option.noConfusion h
            · rename_i r₂ rest' rw₂ ih₂ mh₂ mw₂ stf heq₂
              simp only [Option.some.injEq, Prod.mk.injEq] at h
              have her := (IH (sizeOf rest) hltr).2.1 rest le_rfl env zoom p centering
                st₁ _ _ _ _ rest' rw₂ ih₂ mh₂ mw₂ stf heq₂
              rw [← h.1]
              simp only [eraseBList, List.cons.injEq]
              refine ⟨?_, her⟩
              obtain ⟨e'i, e'b⟩ := e'
              simpa [eraseB, PosElement.inner] using he₁
  · intro l hsz env zoom p hidden st w0 h0 els' w hh st' h
    cases l with
    | nil =>
      rw [positionSecGo.eq_1] at h
      simp only [Option.some.injEq, Prod.mk.injEq] at h
      rw [← h.1]
    | cons e rest =>
      obtain ⟨einner, eob⟩ := e
      rw [positionSecGo.eq_2] at h
      split at h
      · exact Option.noConfusion h
      · rename_i r e' st₁ heq₁
        split at h
        · exact Option.noConfusion h
        · rename_i b hb
          simp only [] at h
          generalize (if hidden then w0 else w0 ⊔ b.size.1) = W at h
          generalize (if hidden then h0 else h0 + b.size.2 + p * st₁.hidpi_scale * zoom) = H at h
          split at h
          · exact Option.noConfusion h
          · rename_i r₂ rest' w₂ h₂ stf heq₂
            simp only [Option.some.injEq, Prod.mk.injEq] at h
            have hlt₁ : sizeOf einner < n := by simp at hsz; omega
            have he₁ := (IH (sizeOf einner) hlt₁).1 einner le_rfl env zoom p st eob
              e' st₁ heq₁
            have hltr : sizeOf rest < n := by simp at hsz; omega
            have her := (IH (sizeOf rest) hltr).2.2 rest le_rfl env zoom p hidden _
              W H rest' w₂ h₂ stf heq₂
            rw [← h.1]
            simp only [eraseBList, List.cons.injEq]
            exact ⟨he₁, her⟩

/-- `Positioner::position` never changes an element's content: the output
erases to the same value as the input. -/
theorem positionEl_erase (env : LayoutEnv) (zoom p : ℚ) (st : Positioner)
    (el e' : PosElement) (st' : Positioner)
    (h : positionEl env zoom p st el = some (e', st')) :
    eraseB e' = eraseB el := by
  obtain ⟨inner, ob⟩ := el
  exact (erase_master (sizeOf inner)).1 inner le_rfl env zoom p st ob e' st' h

/-! ### Independence of layout from the anchor registry and from stale bounds

The rectangles `position` computes depend neither on the anchor registry it
starts with nor on any previously stored bounds; only the anchor registry
output differs.  This is the heart of the spec's idempotence property. -/

/-- Forget the anchor registry of a positioner (the registry is the only
state positioning reads back differently between two passes). -/
def stripA (st : Positioner) : Positioner := { st with anchors := [] }

def mapStrip : Option (PosElement × Positioner) → Option (PosElement × Positioner) :=
  Option.map fun r => (r.1, stripA r.2)

def mapStripRow :
    Option (List PosElement × ℚ × ℚ × ℚ × ℚ × Positioner) →
    Option (List PosElement × ℚ × ℚ × ℚ × ℚ × Positioner) :=
  Option.map fun r => (r.1, r.2.1, r.2.2.1, r.2.2.2.1, r.2.2.2.2.1, stripA r.2.2.2.2.2)

def mapStripSec :
    Option (List PosElement × ℚ × ℚ × Positioner) →
    Option (List PosElement × ℚ × ℚ × Positioner) :=
  Option.map fun r => (r.1, r.2.1, r.2.2.1, stripA r.2.2.2)

def mapStripL :
    Option (List PosElement × Positioner) → Option (List PosElement × Positioner) :=
  Option.map fun r => (r.1, stripA r.2)

theorem stripA_eq {s₁ s₂ : Positioner} (h : stripA s₁ = stripA s₂) :
    s₁ = { s₂ with anchors := s₁.anchors } := by
  obtain ⟨a, b, c, d, e, f⟩ := s₁
  obtain ⟨a', b', c', d', e', f'⟩ := s₂
  simp only [stripA, Positioner.mk.injEq] at h ⊢
  simp_all

theorem eraseArg_master : ∀ n : Nat,
    (∀ inner : Element, sizeOf inner ≤ n →
      ∀ (env : LayoutEnv) (zoom p : ℚ) (st : Positioner) (ob : Option Rect),
        positionEl env zoom p st (.mk inner ob)
          = positionEl env zoom p st (.mk (eraseBEl inner) none))
    ∧ (∀ l : List PosElement, sizeOf l ≤ n →
      ∀ (env : LayoutEnv) (zoom p centering : ℚ) (st : Positioner)
        (rw0 ih0 mh0 mw0 : ℚ),
        positionRowGo env zoom p centering st rw0 ih0 mh0 mw0 l
          = positionRowGo env zoom p centering st rw0 ih0 mh0 mw0 (eraseBList l))
    ∧ (∀ l : List PosElement, sizeOf l ≤ n →
      ∀ (env : LayoutEnv) (zoom p : ℚ) (hidden : Bool) (st : Positioner) (w0 h0 : ℚ),
        positionSecGo env zoom p hidden st w0 h0 l
          = positionSecGo env zoom p hidden st w0 h0 (eraseBList l)) := by
  intro n
  induction n using Nat.strong_induction_on with
  | _ n IH =>
  refine ⟨?_, ?_, ?_⟩
  · intro inner hsz env zoom p st ob
    cases inner with
    | textBox tb => rw [eraseBEl, positionEl.eq_1, positionEl.eq_1]
    | spacer sp => rw [eraseBEl, positionEl.eq_2, positionEl.eq_2]
    | image img => rw [eraseBEl, positionEl.eq_3, positionEl.eq_3]
    | table tbl => rw [eraseBEl, positionEl.eq_4, positionEl.eq_4]
    | row els hs =>
      have hlt : sizeOf els < n := by simp at hsz; omega
      have IHrow := (IH (sizeOf els) hlt).2.1 els le_rfl env zoom p
        (max (st.screen_size.1 - st.page_width) 0 / 2) st
        (st.page_margin + max (st.screen_size.1 - st.page_width) 0 / 2) 0 0 0
      rw [eraseBEl, positionEl.eq_5, positionEl.eq_5, IHrow]
    | sect els hs hidden summary =>
      have hlt : sizeOf els < n := by simp at hsz; omega
      have IHsec := (IH (sizeOf els) hlt).2.2 els le_rfl env zoom p hidden
      rcases summary with - | ⟨sinner, sob⟩
      · rw [eraseBEl, eraseBOpt, positionEl.eq_6, positionEl.eq_6]
        simp only [IHsec]
      · have hlt₂ : sizeOf sinner < n := by simp at hsz; omega
        have IHel := (IH (sizeOf sinner) hlt₂).1 sinner le_rfl env zoom p st sob
        rw [eraseBEl, eraseBOpt, eraseB, positionEl.eq_7, positionEl.eq_7, IHel]
        simp only [IHsec]
  · intro l hsz env zoom p centering st rw0 ih0 mh0 mw0
    cases l with
    | nil => rw [eraseBList]
    | cons e rest =>
      obtain ⟨einner, eob⟩ := e
      have hlt₁ : sizeOf einner < n := by simp at hsz; omega
      have hltr : sizeOf rest < n := by simp at hsz; omega
      have IHel := (IH (sizeOf einner) hlt₁).1 einner le_rfl env zoom p st eob
      rw [eraseBList, eraseB, positionRowGo.eq_2, positionRowGo.eq_2, IHel]
      simp only [(IH (sizeOf rest) hltr).2.1 rest le_rfl]
  · intro l hsz env zoom p hidden st w0 h0
    cases l with
    | nil => rw [eraseBList]
    | cons e rest =>
      obtain ⟨einner, eob⟩ := e
      have hlt₁ : sizeOf einner < n := by simp at hsz; omega
      have hltr : sizeOf rest < n := by simp at hsz; omega
      have IHel := (IH (sizeOf einner) hlt₁).1 einner le_rfl env zoom p st eob
      rw [eraseBList, eraseB, positionSecGo.eq_2, positionSecGo.eq_2, IHel]
      simp only [(IH (sizeOf rest) hltr).2.2 rest le_rfl]

/-- The rectangles `position` computes do not depend on any bounds already
stored in the element: positioning an element and positioning its erased
version agree exactly. -/
theorem positionEl_eraseArg (env : LayoutEnv) (zoom p : ℚ) (st : Positioner)
    (el : PosElement) :
    positionEl env zoom p st el = positionEl env zoom p st (eraseB el) := by
  obtain ⟨inner, ob⟩ := el
  rw [eraseB]
  exact (eraseArg_master (sizeOf inner)).1 inner le_rfl env zoom p st ob

theorem anchors_master : ∀ n : Nat,
    (∀ inner : Element, sizeOf inner ≤ n →
      ∀ (env : LayoutEnv) (zoom p : ℚ) (st : Positioner) (B : List (String × ℚ))
        (ob : Option Rect),
        mapStrip (positionEl env zoom p { st with anchors := B } (.mk inner ob))
          = mapStrip (positionEl env zoom p st (.mk inner ob)))
    ∧ (∀ l : List PosElement, sizeOf l ≤ n →
      ∀ (env : LayoutEnv) (zoom p centering : ℚ) (st : Positioner)
        (B : List (String × ℚ)) (rw0 ih0 mh0 mw0 : ℚ),
        mapStripRow (positionRowGo env zoom p centering { st with anchors := B }
            rw0 ih0 mh0 mw0 l)
          = mapStripRow (positionRowGo env zoom p centering st rw0 ih0 mh0 mw0 l))
    ∧ (∀ l : List PosElement, sizeOf l ≤ n →
      ∀ (env : LayoutEnv) (zoom p : ℚ) (hidden : Bool) (st : Positioner)
        (B : List (String × ℚ)) (w0 h0 : ℚ),
        mapStripSec (positionSecGo env zoom p hidden { st with anchors := B } w0 h0 l)
          = mapStripSec (positionSecGo env zoom p hidden st w0 h0 l)) := by
  intro n
  induction n using Nat.strong_induction_on with
  | _ n IH =>
  refine ⟨?_, ?_, ?_⟩
  · intro inner hsz env zoom p st B ob
    cases inner with
    | textBox tb =>
      rw [positionEl.eq_1, positionEl.eq_1]
      cases tb.is_anchor <;> simp [mapStrip, stripA]
    | spacer sp =>
      rw [positionEl.eq_2, positionEl.eq_2]
      simp [mapStrip, stripA]
    | image img =>
      rw [positionEl.eq_3, positionEl.eq_3]
      simp [mapStrip, stripA]
    | table tbl =>
      rw [positionEl.eq_4, positionEl.eq_4]
      dsimp only
      split
      · rfl
      · simp [mapStrip, stripA]
    | row els hs =>
      have hlt : sizeOf els < n := by simp at hsz; omega
      have IHrow := (IH (sizeOf els) hlt).2.1 els le_rfl env zoom p
        (max (st.screen_size.1 - st.page_width) 0 / 2) st B
        (st.page_margin + max (st.screen_size.1 - st.page_width) 0 / 2) 0 0 0
      rw [positionEl.eq_5, positionEl.eq_5]
      dsimp only
      split
      · rename_i heqL
        rw [heqL] at IHrow
        split
        · rfl
        · rename_i r2 elsR rwR ihR mhR mwR stR heqR
          rw [heqR] at IHrow
          simp [mapStripRow] at IHrow
      · rename_i r1 elsL rwL ihL mhL mwL stL heqL
        rw [heqL] at IHrow
        split
        · rename_i heqR
          rw [heqR] at IHrow
          simp [mapStripRow] at IHrow
        · rename_i r2 elsR rwR ihR mhR mwR stR heqR
          rw [heqR] at IHrow
          simp [mapStripRow, Prod.ext_iff] at IHrow
          obtain ⟨hels, hrw, hih, hmh, hmw, hstrip⟩ := IHrow
          subst hels hrw hih hmh hmw
          have hSt := stripA_eq hstrip
          rw [hSt]
          simp [mapStrip, stripA]
    | sect els hs hidden summary =>
      have hlt : sizeOf els < n := by simp at hsz; omega
      rcases summary with - | ⟨sinner, sob⟩
      · have IHsec := (IH (sizeOf els) hlt).2.2 els le_rfl env zoom p hidden st B 0 0
        rw [positionEl.eq_6, positionEl.eq_6]
        dsimp only
        split
        · rename_i heqL
          rw [heqL] at IHsec
          split
          · rfl
          · rename_i r2 elsR wR hR stR heqR
            rw [heqR] at IHsec
            simp [mapStripSec] at IHsec
        · rename_i r1 elsL wL hL stL heqL
          rw [heqL] at IHsec
          split
          · rename_i heqR
            rw [heqR] at IHsec
            simp [mapStripSec] at IHsec
          · rename_i r2 elsR wR hR stR heqR
            rw [heqR] at IHsec
            simp [mapStripSec, Prod.ext_iff] at IHsec
            obtain ⟨hels, hw, hh2, hstrip⟩ := IHsec
            subst hels hw hh2
            have hSt := stripA_eq hstrip
            rw [hSt]
            simp [mapStrip, stripA]
      · have hlt₂ : sizeOf sinner < n := by simp at hsz; omega
        have IHel := (IH (sizeOf sinner) hlt₂).1 sinner le_rfl env zoom p st B sob
        rw [positionEl.eq_7, positionEl.eq_7]
        dsimp only
        cases hpL : positionEl env zoom p { st with anchors := B } (.mk sinner sob) with
        | none =>
          rw [hpL] at IHel
          cases hpR : positionEl env zoom p st (.mk sinner sob) with
          | none => rfl
          | some rR =>
            rw [hpR] at IHel
            simp [mapStrip] at IHel
        | some rL =>
          obtain ⟨sL, stL⟩ := rL
          rw [hpL] at IHel
          cases hpR : positionEl env zoom p st (.mk sinner sob) with
          | none =>
            rw [hpR] at IHel
            simp [mapStrip] at IHel
          | some rR =>
            obtain ⟨sR, stR⟩ := rR
            rw [hpR] at IHel
            simp [mapStrip, Prod.ext_iff] at IHel
            obtain ⟨hs', hstrip⟩ := IHel
            subst hs'
            have hSt := stripA_eq hstrip
            rw [hSt]
            dsimp only
            cases hbnd : sL.bounds with
            | none => rfl
            | some b =>
              dsimp only
              have IHsec := (IH (sizeOf els) hlt).2.2 els le_rfl env zoom p hidden
                  { stR with reserved_height :=
                      stR.reserved_height + b.size.2 + p * stR.hidpi_scale * zoom }
                  stL.anchors
                  (0 ⊔ b.size.1) (b.size.2 + p * stR.hidpi_scale * zoom)
              dsimp only at IHsec
              split
              · rename_i heqL
                rw [heqL] at IHsec
                split
                · rfl
                · rename_i r2 elsR wR hR stR₂ heqR
                  rw [heqR] at IHsec
                  simp [mapStripSec] at IHsec
              · rename_i r1 elsL wL hL stL₂ heqL
                rw [heqL] at IHsec
                split
                · rename_i heqR
                  rw [heqR] at IHsec
                  simp [mapStripSec] at IHsec
                · rename_i r2 elsR wR hR stR₂ heqR
                  rw [heqR] at IHsec
                  simp [mapStripSec, Prod.ext_iff] at IHsec
                  obtain ⟨hels, hw, hh2, hstrip₂⟩ := IHsec
                  subst hels hw hh2
                  have hSt₂ := stripA_eq hstrip₂
                  rw [hSt₂]
                  simp [mapStrip, stripA]
  · intro l hsz env zoom p centering st B rw0 ih0 mh0 mw0
    cases l with
    | nil =>
      rw [positionRowGo.eq_1, positionRowGo.eq_1]
      simp [mapStripRow, stripA]
    | cons e rest =>
      obtain ⟨einner, eob⟩ := e
      have hlt₁ : sizeOf einner < n := by simp at hsz; omega
      have hltr : sizeOf rest < n := by simp at hsz; omega
      have IHel := (IH (sizeOf einner) hlt₁).1 einner le_rfl env zoom p st B eob
      rw [positionRowGo.eq_2, positionRowGo.eq_2]
      cases hpL : positionEl env zoom p { st with anchors := B } (.mk einner eob) with
      | none =>
        rw [hpL] at IHel
        cases hpR : positionEl env zoom p st (.mk einner eob) with
        | none => rfl
        | some rR =>
          rw [hpR] at IHel
          simp [mapStrip] at IHel
      | some rL =>
        obtain ⟨eL, stL⟩ := rL
        rw [hpL] at IHel
        cases hpR : positionEl env zoom p st (.mk einner eob) with
        | none =>
          rw [hpR] at IHel
          simp [mapStrip] at IHel
        | some rR =>
          obtain ⟨eR, stR⟩ := rR
          rw [hpR] at IHel
          simp [mapStrip, Prod.ext_iff] at IHel
          obtain ⟨he', hstrip⟩ := IHel
          subst he'
          have hSt := stripA_eq hstrip
          rw [hSt]
          dsimp only
          cases hbnd : eL.bounds with
          | none => rfl
          | some b =>
            dsimp only
            have IHrest := (IH (sizeOf rest) hltr).2.1 rest le_rfl env zoom p centering
              stR stL.anchors
            split
            · rename_i hcond
              have IHr := IHrest
                (stR.page_margin + centering + p * stR.hidpi_scale * zoom + b.size.1)
                (ih0 + mh0 + p * stR.hidpi_scale * zoom) (b.size.2) (mw0 ⊔ rw0)
              split
              · rename_i heqL
                rw [heqL] at IHr
                split
                · rfl
                · rename_i r2 restR rwR ihR mhR mwR stfR heqR
                  rw [heqR] at IHr
                  simp [mapStripRow] at IHr
              · rename_i r1 restL rwL ihL mhL mwL stfL heqL
                rw [heqL] at IHr
                split
                · rename_i heqR
                  rw [heqR] at IHr
                  simp [mapStripRow] at IHr
                · rename_i r2 restR rwR ihR mhR mwR stfR heqR
                  rw [heqR] at IHr
                  simp [mapStripRow, Prod.ext_iff] at IHr
                  obtain ⟨hl, hrw, hih, hmh, hmw, hstrip₂⟩ := IHr
                  subst hl hrw hih hmh hmw
                  have hSt₂ := stripA_eq hstrip₂
                  rw [hSt₂]
                  simp [mapStripRow, stripA]
            · rename_i hcond
              have IHr := IHrest
                (rw0 + p * stR.hidpi_scale * zoom + b.size.1)
                ih0 (mh0 ⊔ b.size.2) mw0
              split
              · rename_i heqL
                rw [heqL] at IHr
                split
                · rfl
                · rename_i r2 restR rwR ihR mhR mwR stfR heqR
                  rw [heqR] at IHr
                  simp [mapStripRow] at IHr
              · rename_i r1 restL rwL ihL mhL mwL stfL heqL
                rw [heqL] at IHr
                split
                · rename_i heqR
                  rw [heqR] at IHr
                  simp [mapStripRow] at IHr
                · rename_i r2 restR rwR ihR mhR mwR stfR heqR
                  rw [heqR] at IHr
                  simp [mapStripRow, Prod.ext_iff] at IHr
                  obtain ⟨hl, hrw, hih, hmh, hmw, hstrip₂⟩ := IHr
                  subst hl hrw hih hmh hmw
                  have hSt₂ := stripA_eq hstrip₂
                  rw [hSt₂]
                  simp [mapStripRow, stripA]
  · intro l hsz env zoom p hidden st B w0 h0
    cases l with
    | nil =>
      rw [positionSecGo.eq_1, positionSecGo.eq_1]
      simp [mapStripSec, stripA]
    | cons e rest =>
      obtain ⟨einner, eob⟩ := e
      have hlt₁ : sizeOf einner < n := by simp at hsz; omega
      have hltr : sizeOf rest < n := by simp at hsz; omega
      have IHel := (IH (sizeOf einner) hlt₁).1 einner le_rfl env zoom p st B eob
      rw [positionSecGo.eq_2, positionSecGo.eq_2]
      cases hpL : positionEl env zoom p { st with anchors := B } (.mk einner eob) with
      | none =>
        rw [hpL] at IHel
        cases hpR : positionEl env zoom p st (.mk einner eob) with
        | none => rfl
        | some rR =>
          rw [hpR] at IHel
          simp [mapStrip] at IHel
      | some rL =>
        obtain ⟨eL, stL⟩ := rL
        rw [hpL] at IHel
        cases hpR : positionEl env zoom p st (.mk einner eob) with
        | none =>
          rw [hpR] at IHel
          simp [mapStrip] at IHel
        | some rR =>
          obtain ⟨eR, stR⟩ := rR
          rw [hpR] at IHel
          simp [mapStrip, Prod.ext_iff] at IHel
          obtain ⟨he', hstrip⟩ := IHel
          subst he'
          have hSt := stripA_eq hstrip
          rw [hSt]
          dsimp only
          cases hbnd : eL.bounds with
          | none => rfl
          | some b =>
            dsimp only
            have IHr := (IH (sizeOf rest) hltr).2.2 rest le_rfl env zoom p hidden
              { stR with reserved_height :=
                  stR.reserved_height + b.size.2 + p * stR.hidpi_scale * zoom }
              stL.anchors
              (if hidden then w0 else w0 ⊔ b.size.1)
              (if hidden then h0 else h0 + b.size.2 + p * stR.hidpi_scale * zoom)
            dsimp only at IHr
            split
            · rename_i heqL
              rw [heqL] at IHr
              split
              · rfl
              · rename_i r2 restR wR hR stfR heqR
                rw [heqR] at IHr
                simp [mapStripSec] at IHr
            · rename_i r1 restL wL hL stfL heqL
              rw [heqL] at IHr
              split
              · rename_i heqR
                rw [heqR] at IHr
                simp [mapStripSec] at IHr
              · rename_i r2 restR wR hR stfR heqR
                rw [heqR] at IHr
                simp [mapStripSec, Prod.ext_iff] at IHr
                obtain ⟨hl, hw, hh2, hstrip₂⟩ := IHr
                subst hl hw hh2
                have hSt₂ := stripA_eq hstrip₂
                rw [hSt₂]
                simp [mapStripSec, stripA]

/-- `Positioner::position` run from two positioners that differ only in their
anchor registries yields identical elements and identical positioner state
apart from the registries. -/
theorem positionEl_anchorsArg (env : LayoutEnv) (zoom p : ℚ) (st : Positioner)
    (B : List (String × ℚ)) (el : PosElement) :
    mapStrip (positionEl env zoom p { st with anchors := B } el)
      = mapStrip (positionEl env zoom p st el) := by
  obtain ⟨inner, ob⟩ := el
  exact (anchors_master (sizeOf inner)).1 inner le_rfl env zoom p st B ob

/-- Every successful `position` call stores bounds, and the stored rectangle's
`y`-coordinate is the cursor value at the start of the call, for every
variant. -/
theorem positionEl_bounds (env : LayoutEnv) (zoom p : ℚ) (st : Positioner)
    (el e' : PosElement) (st' : Positioner)
    (h : positionEl env zoom p st el = some (e', st')) :
    ∃ b : Rect, e'.bounds = some b ∧ b.pos.2 = st.reserved_height := by
  obtain ⟨inner, ob⟩ := el
  cases inner with
  | textBox tb =>
    rw [positionEl.eq_1] at h
    simp only [Option.some.injEq, Prod.mk.injEq] at h
    rw [← h.1]
    exact ⟨_, rfl, rfl⟩
  | spacer sp =>
    rw [positionEl.eq_2] at h
    simp only [Option.some.injEq, Prod.mk.injEq] at h
    rw [← h.1]
    exact ⟨_, rfl, rfl⟩
  | image img =>
    rw [positionEl.eq_3] at h
    simp only [Option.some.injEq, Prod.mk.injEq] at h
    rw [← h.1]
    rcases img.is_aligned with - | al
    · exact ⟨_, rfl, rfl⟩
    · cases al <;> exact ⟨_, rfl, rfl⟩
  | table tbl =>
    rw [positionEl.eq_4] at h
    split at h
    · exact Option.noConfusion h
    · simp only [Option.some.injEq, Prod.mk.injEq] at h
      rw [← h.1]
      exact ⟨_, rfl, rfl⟩
  | row els hs =>
    rw [positionEl.eq_5] at h
    split at h
    · exact Option.noConfusion h
    · rename_i r els' rw' ih mh mw stf heq
      simp only [Option.some.injEq, Prod.mk.injEq] at h
      have hst := positionRowGo_state env zoom p _ st _ _ _ _ els els' rw' ih mh mw stf heq
      rw [← h.1]
      refine ⟨_, rfl, ?_⟩
      rw [hst]
  | sect els hs hidden summary =>
    rcases summary with - | ⟨sinner, sob⟩
    · rw [positionEl.eq_6] at h
      split at h
      · exact Option.noConfusion h
      · simp only [Option.some.injEq, Prod.mk.injEq] at h
        rw [← h.1]
        exact ⟨_, rfl, rfl⟩
    · rw [positionEl.eq_7] at h
      split at h
      · exact Option.noConfusion h
      · split at h
        · exact Option.noConfusion h
        · simp only [Option.some.injEq, Prod.mk.injEq] at h
          rw [← h.1]
          exact ⟨_, rfl, rfl⟩

/-- The padding-suppression check only reads content (header flag, table
caption), never bounds, so it is invariant under erasing the next element's
bounds. -/
theorem skipPadding_eraseB_next (a x : PosElement) :
    skipPadding a (some x) = skipPadding a (some (eraseB x)) := by
  obtain ⟨ai, ab⟩ := a
  obtain ⟨xi, xb⟩ := x
  cases ai <;> cases xi <;> rfl

theorem eraseBList_head? (l : List PosElement) :
    (eraseBList l).head? = l.head?.map eraseB := by
  cases l <;> simp [eraseBList]

/-- The suppression check after an element agrees whether the tail is the
original or any tail with the same erased content. -/
theorem skipPadding_congr (a : PosElement) (l₁ l₂ : List PosElement)
    (h : eraseBList l₁ = eraseBList l₂) :
    skipPadding a l₁.head? = skipPadding a l₂.head? := by
  cases l₁ with
  | nil =>
    cases l₂ with
    | nil => rfl
    | cons y ys => simp [eraseBList] at h
  | cons x xs =>
    cases l₂ with
    | nil => simp [eraseBList] at h
    | cons y ys =>
      simp only [eraseBList, List.cons.injEq] at h
      simp only [List.head?_cons]
      rw [skipPadding_eraseB_next a x, skipPadding_eraseB_next a y, h.1]

/-- The reposition loop leaves every `Positioner` field except `anchors` and
`reserved_height` unchanged. -/
theorem repoGo_state (env : LayoutEnv) (zoom p : ℚ) (st : Positioner)
    (l l' : List PosElement) (st' : Positioner)
    (h : repoGo env zoom p st l = some (l', st')) :
    st' = { st with anchors := st'.anchors, reserved_height := st'.reserved_height } := by
  induction l generalizing st l' st' with
  | nil =>
    rw [repoGo] at h
    simp only [Option.some.injEq, Prod.mk.injEq] at h
    rw [← h.2]
  | cons e rest IHrest =>
    rw [repoGo] at h
    split at h
    · exact Option.noConfusion h
    · rename_i r e' st₁ heq₁
      split at h
      · exact Option.noConfusion h
      · rename_i b hb
        split at h <;>
          (simp only [] at h
           split at h
           · exact Option.noConfusion h
           · rename_i r₂ rest' stf heq₂
             simp only [Option.some.injEq, Prod.mk.injEq] at h
             have hst₁ := positionEl_state env zoom p st e e' st₁ heq₁
             have hstf := IHrest _ _ _ heq₂
             rw [← h.2, hstf, hst₁])

/-- The reposition loop never changes element content. -/
theorem repoGo_erase (env : LayoutEnv) (zoom p : ℚ) (st : Positioner)
    (l l' : List PosElement) (st' : Positioner)
    (h : repoGo env zoom p st l = some (l', st')) :
    eraseBList l' = eraseBList l := by
  induction l generalizing st l' st' with
  | nil =>
    rw [repoGo] at h
    simp only [Option.some.injEq, Prod.mk.injEq] at h
    rw [← h.1]
  | cons e rest IHrest =>
    rw [repoGo] at h
    split at h
    · exact Option.noConfusion h
    · rename_i r e' st₁ heq₁
      split at h
      · exact Option.noConfusion h
      · rename_i b hb
        split at h <;>
          (simp only [] at h
           split at h
           · exact Option.noConfusion h
           · rename_i r₂ rest' stf heq₂
             simp only [Option.some.injEq, Prod.mk.injEq] at h
             have he := positionEl_erase env zoom p st e e' st₁ heq₁
             have her := IHrest _ _ _ heq₂
             rw [← h.1]
             simp only [eraseBList, List.cons.injEq]
             exact ⟨he, her⟩)

theorem skipPadding_eraseBList_head (a : PosElement) (l : List PosElement) :
    skipPadding a (eraseBList l).head? = skipPadding a l.head? := by
  cases l with
  | nil => rfl
  | cons x xs =>
    simp only [eraseBList, List.head?_cons]
    exact (skipPadding_eraseB_next a x).symm

/-- The reposition loop computes the same result whether it is fed the
original elements or their bounds-erased versions. -/
theorem repoGo_eraseArg (env : LayoutEnv) (zoom p : ℚ) (st : Positioner)
    (l : List PosElement) :
    repoGo env zoom p st l = repoGo env zoom p st (eraseBList l) := by
  induction l generalizing st with
  | nil => rw [eraseBList]
  | cons e rest IHrest =>
    rw [eraseBList, repoGo, repoGo, ← positionEl_eraseArg env zoom p st e]
    cases hp : positionEl env zoom p st e with
    | none => rfl
    | some r =>
      obtain ⟨e', st₁⟩ := r
      dsimp only
      cases hb : e'.bounds with
      | none => rfl
      | some b =>
        dsimp only
        rw [skipPadding_eraseBList_head]
        simp only [IHrest]

/-- The reposition loop run from two positioners that differ only in the
anchor registry yields identical elements and states apart from the
registries. -/
theorem repoGo_anchorsArg (env : LayoutEnv) (zoom p : ℚ) (st : Positioner)
    (B : List (String × ℚ)) (l : List PosElement) :
    mapStripL (repoGo env zoom p { st with anchors := B } l)
      = mapStripL (repoGo env zoom p st l) := by
  induction l generalizing st B with
  | nil =>
    rw [repoGo, repoGo]
    simp [mapStripL, stripA]
  | cons e rest IHrest =>
    rw [repoGo, repoGo]
    have IHel := positionEl_anchorsArg env zoom p st B e
    cases hpL : positionEl env zoom p { st with anchors := B } e with
    | none =>
      rw [hpL] at IHel
      cases hpR : positionEl env zoom p st e with
      | none => rfl
      | some rR =>
        rw [hpR] at IHel
        simp [mapStrip] at IHel
    | some rL =>
      obtain ⟨eL, stL⟩ := rL
      rw [hpL] at IHel
      cases hpR : positionEl env zoom p st e with
      | none =>
        rw [hpR] at IHel
        simp [mapStrip] at IHel
      | some rR =>
        obtain ⟨eR, stR⟩ := rR
        rw [hpR] at IHel
        simp [mapStrip, Prod.ext_iff] at IHel
        obtain ⟨he', hstrip⟩ := IHel
        subst he'
        have hSt := stripA_eq hstrip
        rw [hSt]
        dsimp only
        cases hbnd : eL.bounds with
        | none => rfl
        | some b =>
          dsimp only
          by_cases hsk : skipPadding eL rest.head? = true
          · rw [if_pos hsk, if_pos hsk]
            have IHr := IHrest { stR with reserved_height := b.pos.2 + b.size.2 }
              stL.anchors
            split
            · rename_i heqL
              rw [heqL] at IHr
              split
              · rfl
              · rename_i r2 restR stfR heqR
                rw [heqR] at IHr
                simp [mapStripL] at IHr
            · rename_i r1 restL stfL heqL
              rw [heqL] at IHr
              split
              · rename_i heqR
                rw [heqR] at IHr
                simp [mapStripL] at IHr
              · rename_i r2 restR stfR heqR
                rw [heqR] at IHr
                simp [mapStripL, Prod.ext_iff] at IHr
                obtain ⟨hl, hstrip₂⟩ := IHr
                subst hl
                have hSt₂ := stripA_eq hstrip₂
                rw [hSt₂]
                simp [mapStripL, stripA]
          · rw [if_neg hsk, if_neg hsk]
            have IHr := IHrest { stR with reserved_height :=
                b.pos.2 + b.size.2 + p * stR.hidpi_scale * zoom } stL.anchors
            split
            · rename_i heqL
              rw [heqL] at IHr
              split
              · rfl
              · rename_i r2 restR stfR heqR
                rw [heqR] at IHr
                simp [mapStripL] at IHr
            · rename_i r1 restL stfL heqL
              rw [heqL] at IHr
              split
              · rename_i heqR
                rw [heqR] at IHr
                simp [mapStripL] at IHr
              · rename_i r2 restR stfR heqR
                rw [heqR] at IHr
                simp [mapStripL, Prod.ext_iff] at IHr
                obtain ⟨hl, hstrip₂⟩ := IHr
                subst hl
                have hSt₂ := stripA_eq hstrip₂
                rw [hSt₂]
                simp [mapStripL, stripA]

/-- The height bookkeeping of the reposition loop: the final cursor is the
initial cursor plus each element's computed height plus the conditional
inter-element padding. -/
theorem repoGo_height (env : LayoutEnv) (zoom p : ℚ) (st : Positioner)
    (l l' : List PosElement) (st' : Positioner)
    (h : repoGo env zoom p st l = some (l', st')) :
    st'.reserved_height
      = st.reserved_height + totalHeights (p * st.hidpi_scale * zoom) l' := by
  induction l generalizing st l' st' with
  | nil =>
    rw [repoGo] at h
    simp only [Option.some.injEq, Prod.mk.injEq] at h
    rw [← h.1, ← h.2, totalHeights]
    ring
  | cons e rest IHrest =>
    rw [repoGo] at h
    split at h
    · exact Option.noConfusion h
    · rename_i r e' st₁ heq₁
      split at h
      · exact Option.noConfusion h
      · rename_i b hb
        obtain ⟨b', hb', hy⟩ := positionEl_bounds env zoom p st e e' st₁ heq₁
        rw [hb] at hb'
        injection hb' with hbb
        subst hbb
        have hst₁ := positionEl_state env zoom p st e e' st₁ heq₁
        split at h
        · rename_i hskip
          simp only [] at h
          split at h
          · exact Option.noConfusion h
          · rename_i r₂ rest' stf heq₂
            simp only [Option.some.injEq, Prod.mk.injEq] at h
            have hrec := IHrest _ _ _ heq₂
            have herase := repoGo_erase _ _ _ _ _ _ _ heq₂
            have hskip' : skipPadding e' rest'.head? = skipPadding e' rest.head? :=
              skipPadding_congr e' rest' rest herase
            rw [← h.1, ← h.2, totalHeights, heightOf, hb, hskip', hskip]
            rw [hst₁] at hrec
            simp only [if_true] at hrec ⊢
            rw [hrec]
            rw [hy]
            ring
        · rename_i hskip
          simp only [] at h
          split at h
          · exact Option.noConfusion h
          · rename_i r₂ rest' stf heq₂
            simp only [Option.some.injEq, Prod.mk.injEq] at h
            have hrec := IHrest _ _ _ heq₂
            have herase := repoGo_erase _ _ _ _ _ _ _ heq₂
            have hskip' : skipPadding e' rest'.head? = skipPadding e' rest.head? :=
              skipPadding_congr e' rest' rest herase
            have hskipf : skipPadding e' rest.head? = false := by
              cases hsp : skipPadding e' rest.head?
              · rfl
              · exact absurd hsp hskip
            rw [← h.1, ← h.2, totalHeights, heightOf, hb, hskip', hskipf]
            rw [hst₁] at hrec
            simp only [Bool.false_eq_true, if_false]
            rw [hrec, hy]
            ring

/-- Row-wrapping width invariant: every child placed by the row loop either
ends at or before the right content edge, or is an oversized child (wider
than the whole content column) sitting alone at the left content edge. -/
theorem positionRowGo_fit (env : LayoutEnv) (zoom p centering : ℚ) (st : Positioner)
    (rw0 ih0 mh0 mw0 : ℚ) (l els' : List PosElement) (rw ih mh mw : ℚ)
    (st' : Positioner)
    (hpad : 0 ≤ p * st.hidpi_scale * zoom)
    (h : positionRowGo env zoom p centering st rw0 ih0 mh0 mw0 l
        = some (els', rw, ih, mh, mw, st')) :
    ∀ c ∈ els', ∃ b : Rect, c.bounds = some b ∧
      (b.pos.1 + b.size.1 ≤ st.screen_size.1 - st.page_margin - centering ∨
        (st.screen_size.1 - st.page_margin - centering - (st.page_margin + centering)
            < b.size.1 ∧
          b.pos.1 = st.page_margin + centering)) := by
  induction l generalizing st rw0 ih0 mh0 mw0 els' rw ih mh mw st' with
  | nil =>
    rw [positionRowGo.eq_1] at h
    simp only [Option.some.injEq, Prod.mk.injEq] at h
    rw [← h.1]
    intro c hc
    exact absurd hc (List.not_mem_nil c)
  | cons e rest IHrest =>
    rw [positionRowGo.eq_2] at h
    split at h
    · exact Option.noConfusion h
    · rename_i r e' st₁ heq₁
      split at h
      · exact Option.noConfusion h
      · rename_i b hb
        have hst₁ := positionEl_state env zoom p st e e' st₁ heq₁
        have hscr : st₁.screen_size = st.screen_size := by rw [hst₁]
        have hpm : st₁.page_margin = st.page_margin := by rw [hst₁]
        have hhd : st₁.hidpi_scale = st.hidpi_scale := by rw [hst₁]
        have hpad₁ : 0 ≤ p * st₁.hidpi_scale * zoom := by rw [hhd]; exact hpad
        simp only [] at h
        split at h
        · rename_i hcond
          split at h
          · exact Option.noConfusion h
          · rename_i r₂ rest' rw₂ ih₂ mh₂ mw₂ stf heq₂
            simp only [Option.some.injEq, Prod.mk.injEq] at h
            have hrest := IHrest st₁ _ _ _ _ _ _ _ _ _ _ hpad₁ heq₂
            rw [← h.1]
            intro c hc
            rcases List.mem_cons.mp hc with hhdm | htl
            · subst hhdm
              refine ⟨_, rfl, ?_⟩
              dsimp only
              rw [hpm]
              by_cases hw : st.screen_size.1 - st.page_margin - centering
                  - (st.page_margin + centering) < b.size.1
              · exact Or.inr ⟨hw, rfl⟩
              · push_neg at hw
                exact Or.inl (by linarith)
            · obtain ⟨bb, hbb, hfit⟩ := hrest c htl
              rw [hscr, hpm] at hfit
              exact ⟨bb, hbb, hfit⟩
        · rename_i hcond
          split at h
          · exact Option.noConfusion h
          · rename_i r₂ rest' rw₂ ih₂ mh₂ mw₂ stf heq₂
            simp only [Option.some.injEq, Prod.mk.injEq] at h
            have hrest := IHrest st₁ _ _ _ _ _ _ _ _ _ _ hpad₁ heq₂
            rw [← h.1]
            intro c hc
            rcases List.mem_cons.mp hc with hhdm | htl
            · subst hhdm
              refine ⟨_, rfl, ?_⟩
              dsimp only
              rw [hscr, hpm, hhd] at hcond
              push_neg at hcond
              exact Or.inl (by linarith)
            · obtain ⟨bb, hbb, hfit⟩ := hrest c htl
              rw [hscr, hpm] at hfit
              exact ⟨bb, hbb, hfit⟩

theorem lookupAnchor_insert_self (nm : String) (y : ℚ) (l : List (String × ℚ)) :
    lookupAnchor nm (insertAnchor nm y l) = some y := by
  induction l with
  | nil => simp [insertAnchor, lookupAnchor]
  | cons kv rest IH =>
    obtain ⟨k, v⟩ := kv
    by_cases hk : k = nm
    · simp [insertAnchor, lookupAnchor, hk]
    · simp [insertAnchor, lookupAnchor, hk, IH]

theorem lookupAnchor_insert_ne (nm m : String) (y : ℚ) (l : List (String × ℚ))
    (hm : m ≠ nm) :
    lookupAnchor m (insertAnchor nm y l) = lookupAnchor m l := by
  induction l with
  | nil => simp [insertAnchor, lookupAnchor, hm, Ne.symm hm]
  | cons kv rest IH =>
    obtain ⟨k, v⟩ := kv
    by_cases hk : k = nm
    · subst hk
      simp [insertAnchor, lookupAnchor, hm, Ne.symm hm]
    · by_cases hkm : k = m
      · subst hkm
        simp [insertAnchor, lookupAnchor, hk, hm, Ne.symm hm]
      · simp [insertAnchor, lookupAnchor, hk, hkm, IH]

/-! ### The claims -/

/-- C1: for every sequence of top-level elements with no hidden sections,
after `Positioner::reposition` completes successfully, `reserved_height`
equals the initial top padding (`element_padding * hidpi_scale * zoom`)
plus, for each element in order, that element's computed height plus one
inter-element padding, except that the padding is omitted after any element
for which the header/uncaptioned-table suppression rule fires. -/
theorem C1_reposition_reserved_height (env : LayoutEnv) (zoom p : ℚ)
    (st : Positioner) (els els' : List PosElement) (st' : Positioner)
    (_hvis : noHiddenList els = true)
    (h : reposition env zoom p st els = some (els', st')) :
    st'.reserved_height
      = p * st.hidpi_scale * zoom + totalHeights (p * st.hidpi_scale * zoom) els' := by
  rw [reposition] at h
  have := repoGo_height env zoom p _ els els' st' h
  simpa using this

/-- C2: a single successful `Positioner::position` call leaves
`reserved_height` exactly as it was at the start of the call, for every
element variant (the `Section` arm resets the cursor to the section's start
after its children temporarily advanced it). -/
theorem C2_position_preserves_cursor (env : LayoutEnv) (zoom p : ℚ)
    (st : Positioner) (el e' : PosElement) (st' : Positioner)
    (h : positionEl env zoom p st el = some (e', st')) :
    st'.reserved_height = st.reserved_height := by
  rw [positionEl_state env zoom p st el e' st' h]

/-- C9: `Renderer::set_scroll_y` stores
`clamp(s, 0, max(0, reserved_height − screen_height))`; the stored offset is
never negative and never exceeds the content overflow. -/
theorem C9_set_scroll_y_clamps (r : Renderer) (s : ℚ) :
    (r.set_scroll_y s).scroll_y
        = ratClamp s 0 (max 0 (r.positioner.reserved_height - r.screen_height))
      ∧ 0 ≤ (r.set_scroll_y s).scroll_y
      ∧ (r.set_scroll_y s).scroll_y
          ≤ max 0 (r.positioner.reserved_height - r.screen_height) := by
  unfold Renderer.set_scroll_y
  dsimp only
  rw [max_comm (r.positioner.reserved_height - r.screen_height) 0]
  refine ⟨rfl, ?_, ?_⟩ <;>
    · unfold ratClamp
      split
      · simp [le_max_left]
      · split
        · simp [le_max_left]
        · rename_i h1 h2
          push_neg at h1 h2
          first | exact h1 | exact h2

/-- C10: when the image-size collaborator returns `None`,
`Positioner::position` still succeeds and stores a rectangle of size
`(0, 0)` at the normal position for the image's alignment. -/
theorem C10_image_none_size (env : LayoutEnv) (zoom p : ℚ) (st : Positioner)
    (img : Image) (ob : Option Rect)
    (hnone : img.size (min st.screen_size.1 st.page_width, st.screen_size.2) zoom
      = none) :
    positionEl env zoom p st (.mk (.image img) ob)
      = some (.mk (.image img)
          (some (Rect.mk
            ((match img.is_aligned with
              | some Align.center => st.screen_size.1 / 2
              | _ => st.page_margin + max (st.screen_size.1 - st.page_width) 0 / 2),
             st.reserved_height)
            ((0 : ℚ), (0 : ℚ)))), st) := by
  rw [positionEl.eq_3, hnone]
  rcases img.is_aligned with - | al
  · rfl
  · cases al
    · rfl
    · dsimp only [Option.getD]
      norm_num
    · rfl

/-- C5: in every Row layout produced by `Positioner::position`, each child's
rectangle satisfies `pos.x + width ≤ screen_width − page_margin − centering`,
unless the child's own width alone exceeds the available content width, in
which case the child starts at the left content edge and overflows by
itself. -/
theorem C5_row_children_within_width (env : LayoutEnv) (zoom p : ℚ)
    (st : Positioner) (els : List PosElement) (hs : ℚ) (ob : Option Rect)
    (e' : PosElement) (st' : Positioner)
    (hpad : 0 ≤ p * st.hidpi_scale * zoom)
    (h : positionEl env zoom p st (.mk (.row els hs) ob) = some (e', st')) :
    ∃ els' : List PosElement, e'.inner = .row els' hs ∧
      ∀ c ∈ els', ∃ b : Rect, c.bounds = some b ∧
        (b.pos.1 + b.size.1
            ≤ st.screen_size.1 - st.page_margin
              - max (st.screen_size.1 - st.page_width) 0 / 2 ∨
          (st.screen_size.1 - st.page_margin
              - max (st.screen_size.1 - st.page_width) 0 / 2
              - (st.page_margin + max (st.screen_size.1 - st.page_width) 0 / 2)
              < b.size.1 ∧
            b.pos.1 = st.page_margin
              + max (st.screen_size.1 - st.page_width) 0 / 2)) := by
  rw [positionEl.eq_5] at h
  split at h
  · exact Option.noConfusion h
  · rename_i r els₂ rw₂ ih₂ mh₂ mw₂ stf heq
    simp only [Option.some.injEq, Prod.mk.injEq] at h
    refine ⟨els₂, ?_, ?_⟩
    · rw [← h.1]
      rfl
    · exact positionRowGo_fit env zoom p _ st _ _ _ _ els els₂ rw₂ ih₂ mh₂ mw₂ stf
        hpad heq

/-! ### Concrete fixtures used by evaluation theorems and witnesses -/

/-- A concrete measurement environment: every text block measures 30×10, every
table solves to 50×20. -/
def envW : LayoutEnv := ⟨fun _ _ _ => (30, 10), fun _ _ _ => some (50, 20)⟩

/-- A concrete positioner: 100×200 screen, cursor at 7, hidpi 1, page width
100, margin 0, empty registry. -/
def stW : Positioner := ⟨(100, 200), 7, 1, 100, 0, []⟩

/-- A header-type text block with no texts. -/
def hdrE : Element := .textBox ⟨[], true, 0, none⟩

/-- An ordinary paragraph. -/
def plainE : Element := .textBox ⟨[⟨"x"⟩], false, 0, none⟩

/-- A table with no caption. -/
def tblE : Element := .table ⟨[], none⟩

/-- A 40×10 image with default alignment. -/
def imgE : Element := .image ⟨some (40, 10), none⟩

/-- C4 (code bug): on the batch `[header, x, header, y, table-no-caption]`
the preprocessing step of `position_queued_elements` pushes the duplicate
removal index 3 (marked once by each header), and the reverse-order
`Vec::remove` loop then deletes the table itself: the result is `[header]`,
not `[header, table]` as the spec requires.  On a batch with two elements
between the second header and the table the duplicate indices even drive
`Vec::remove` out of range (a panic, modelled as `none`). -/
theorem C4_preprocess_removes_table :
    elementsToRemove [hdrE, plainE, hdrE, plainE, tblE] = [1, 2, 3, 3]
      ∧ preprocess [hdrE, plainE, hdrE, plainE, tblE] = some [hdrE]
      ∧ preprocess [hdrE, plainE, hdrE, plainE, plainE, tblE] = none := by
  refine ⟨rfl, rfl, rfl⟩

/-- C6 (counterexample): a Row of three 40-wide images on a 100-wide screen
wraps exactly once (after the first two images), yet its computed height is
`24 = 10 + 2 + 10 + 2` — the sum of the two line heights plus one padding
gap per *line* — not `22 = 10 + 10 + 2`, the sum of the line heights plus
one gap per *wrap boundary* that the claim states. -/
theorem C6_counterexample :
    (positionEl envW 1 2 stW
        (.mk (.row [.mk imgE none, .mk imgE none, .mk imgE none] 1) none)).map
        (fun r => r.1.bounds.map (fun b => b.size.2)) = some (some 24)
      ∧ (24 : ℚ) ≠ 10 + 10 + 2 := by
  constructor
  · simp only [positionEl.eq_5, positionRowGo.eq_2, positionRowGo.eq_1, positionEl.eq_3,
      imgE, Image.size, envW, stW, PosElement.bounds_mk, PosElement.inner_mk]
    norm_num
  · norm_num

/-- A positioner whose registry already holds an entry from an earlier pass. -/
def stA : Positioner := ⟨(100, 200), 0, 1, 100, 0, [("a", 5)]⟩

/-- C8 (counterexample): `Positioner::reposition` never clears the anchor
registry (only `load_file` does, on document reload).  A full reposition
pass over an element list that declares no anchors leaves the stale entry
`("a" ↦ 5)` in the registry, so the registry does not contain exactly the
entries declared by blocks positioned in that pass. -/
theorem C8_counterexample_stale_anchor :
    (reposition envW 1 2 stA []).map (fun r => r.2.anchors) = some [("a", 5)]
      ∧ ([("a", 5)] : List (String × ℚ)) ≠ [] :=
  ⟨rfl, by simp⟩

/-- C8 (amended): positioning an anchor-bearing text block inserts
`(name ↦ current y)` into the registry via `HashMap::insert`, which
overwrites any prior entry for that name and preserves every other entry;
entries simply persist across reposition passes (a pass that positions no
anchor-bearing block leaves the registry untouched). -/
theorem C8_amended_anchor_registry (env : LayoutEnv) (zoom p y : ℚ)
    (st : Positioner) (tb : TextBox) (ob : Option Rect) (nm m : String)
    (l : List (String × ℚ))
    (hanch : tb.is_anchor = some nm) (hm : m ≠ nm) :
    (positionEl env zoom p st (.mk (.textBox tb) ob)).map (fun r => r.2.anchors)
        = some (insertAnchor nm st.reserved_height st.anchors)
      ∧ lookupAnchor nm (insertAnchor nm y l) = some y
      ∧ lookupAnchor m (insertAnchor nm y l) = lookupAnchor m l
      ∧ (reposition env zoom p st []).map (fun r => r.2.anchors) = some st.anchors := by
  refine ⟨?_, lookupAnchor_insert_self nm y l,
    lookupAnchor_insert_ne nm m y l hm, ?_⟩
  · rw [positionEl.eq_1, hanch]
    simp
  · rw [reposition, repoGo]
    simp

theorem matchCons_eq_map (a' : PosElement)
    (X : Option (List PosElement × Positioner)) :
    (match X with
      | none => none
      | some (l, s) => some (a' :: l, s)) = X.map (fun r => (a' :: r.1, r.2)) := by
  cases X with
  | none => rfl
  | some r => obtain ⟨l, s⟩ := r; rfl

/-- C7: repositioning twice in a row with unchanged inputs yields exactly the
same positioned elements (hence bit-identical rectangles) and the same final
`reserved_height` as the first pass. -/
theorem C7_reposition_idempotent (env : LayoutEnv) (zoom p : ℚ)
    (st : Positioner) (es es₁ : List PosElement) (st₁ : Positioner)
    (h : reposition env zoom p st es = some (es₁, st₁)) :
    ∃ st₂ : Positioner, reposition env zoom p st₁ es₁ = some (es₁, st₂)
      ∧ st₂.reserved_height = st₁.reserved_height := by
  rw [reposition] at h
  have hgeo := repoGo_state env zoom p _ es es₁ st₁ h
  have herase := repoGo_erase env zoom p _ es es₁ st₁ h
  have hstate : { st₁ with reserved_height := p * st₁.hidpi_scale * zoom }
      = { { st with reserved_height := p * st.hidpi_scale * zoom } with
          anchors := st₁.anchors } := by
    rw [hgeo]
  have h2 : mapStripL (repoGo env zoom p
        { st₁ with reserved_height := p * st₁.hidpi_scale * zoom } es₁)
      = some (es₁, stripA st₁) := by
    rw [hstate, repoGo_anchorsArg,
      repoGo_eraseArg env zoom p { st with reserved_height := p * st.hidpi_scale * zoom } es₁,
      herase,
      ← repoGo_eraseArg env zoom p { st with reserved_height := p * st.hidpi_scale * zoom } es,
      h]
    rfl
  cases hq : repoGo env zoom p
      { st₁ with reserved_height := p * st₁.hidpi_scale * zoom } es₁ with
  | none =>
    rw [hq] at h2
    exact absurd h2 (by simp [mapStripL])
  | some r =>
    obtain ⟨es₂, st₂⟩ := r
    rw [hq] at h2
    simp only [mapStripL, Option.map, Option.some.injEq, Prod.mk.injEq] at h2
    refine ⟨st₂, ?_, ?_⟩
    · rw [reposition, hq, h2.1]
    · have hstr : stripA st₂ = stripA st₁ := h2.2
      rw [stripA_eq hstr]

/-- C3: in the reposition loop, after positioning one element the cursor
advances to the element's bottom edge plus the inter-element padding, with
the padding suppressed exactly when the positioned element is a header
`TextBox` and the next (not yet positioned) element is a `Table` whose
caption is `None`, has no texts, or has only whitespace-only texts; in every
other case — including a header that is the last element — the padding is
added. -/
theorem C3_padding_suppressed_iff (env : LayoutEnv) (zoom p : ℚ)
    (st : Positioner) (a a' : PosElement) (st₁ : Positioner) (b : Rect)
    (rest : List PosElement)
    (h1 : positionEl env zoom p st a = some (a', st₁))
    (h2 : a'.bounds = some b) :
    repoGo env zoom p st (a :: rest)
        = (repoGo env zoom p
            { st₁ with reserved_height := b.pos.2 + b.size.2
                + (if skipPadding a' rest.head? then 0
                   else p * st₁.hidpi_scale * zoom) } rest).map
            (fun r => (a' :: r.1, r.2))
      ∧ (skipPadding a' rest.head? = true ↔
          ((∃ tb : TextBox, a'.inner = .textBox tb ∧ tb.is_header = true)
            ∧ ∃ nx : PosElement, rest.head? = some nx ∧
                ∃ t : Table, nx.inner = .table t ∧
                  (t.caption = none ∨ ∃ c : TextBox, t.caption = some c ∧
                    (c.texts = [] ∨ ∀ x ∈ c.texts, x.text.trim = "")))) := by
  constructor
  · rw [repoGo, h1]
    dsimp only
    rw [h2]
    dsimp only
    by_cases hsk : skipPadding a' rest.head? = true
    · rw [if_pos hsk, if_pos hsk, matchCons_eq_map]
      simp only [add_zero]
    · rw [if_neg hsk, if_neg hsk, matchCons_eq_map]
  · obtain ⟨ai, ab⟩ := a'
    constructor
    · intro hsk
      cases ai with
      | textBox tb =>
        simp only [skipPadding, PosElement.inner_mk] at hsk
        cases htb : tb.is_header with
        | false => rw [htb] at hsk; simp at hsk
        | true =>
          rw [htb] at hsk
          simp only [if_true] at hsk
          refine ⟨⟨tb, rfl, htb⟩, ?_⟩
          cases hh : rest.head? with
          | none => rw [hh] at hsk; simp at hsk
          | some nx =>
            rw [hh] at hsk
            obtain ⟨ni, nb⟩ := nx
            cases ni with
            | table t =>
              refine ⟨⟨.table t, nb⟩, rfl, t, rfl, ?_⟩
              simp only [PosElement.inner_mk] at hsk
              cases hc : t.caption with
              | none => exact Or.inl rfl
              | some c =>
                rw [hc] at hsk
                refine Or.inr ⟨c, rfl, ?_⟩
                rcases Bool.or_eq_true_iff.mp hsk with hemp | hall
                · exact Or.inl (List.isEmpty_iff.mp hemp)
                · refine Or.inr fun x hx => ?_
                  have := (List.all_eq_true.mp hall) x hx
                  exact (String.isEmpty_iff _).mp (by simpa using this)
            | textBox tb2 => simp [skipPadding] at hsk
            | spacer sp2 => simp [skipPadding] at hsk
            | image im2 => simp [skipPadding] at hsk
            | row els2 hs2 => simp [skipPadding] at hsk
            | sect els2 hs2 hid2 sum2 => simp [skipPadding] at hsk
      | spacer sp => simp [skipPadding] at hsk
      | image im => simp [skipPadding] at hsk
      | table t => simp [skipPadding] at hsk
      | row els2 hs2 => simp [skipPadding] at hsk
      | sect els2 hs2 hid2 sum2 => simp [skipPadding] at hsk
    · rintro ⟨⟨tb, hai, htb⟩, nx, hh, t, hni, hcap⟩
      simp only [PosElement.inner_mk] at hai
      subst hai
      obtain ⟨ni, nb⟩ := nx
      simp only [PosElement.inner_mk] at hni
      subst hni
      simp only [skipPadding, PosElement.inner_mk, htb, if_true, hh]
      rcases hcap with hnone | ⟨c, hc, hcc⟩
      · rw [hnone]
      · rw [hc]
        rcases hcc with hemp | hall
        · simp [hemp]
        · simp only [Bool.or_eq_true_iff]
          refine Or.inr (List.all_eq_true.mpr fun x hx => ?_)
          simpa using (String.isEmpty_iff _).mpr (hall x hx)

/-- The computed size stored in a positioned element (`(0, 0)` when no bounds
were assigned, which never happens after a successful pass). -/
def boundsSize (e : PosElement) : ℚ × ℚ :=
  match e.bounds with
  | some b => b.size
  | none => (0, 0)

def childSizes (l : List PosElement) : List (ℚ × ℚ) := l.map boundsSize

/-- The line decomposition of a row layout: the row loop's wrap rule applied
to the computed child sizes.  `rw` is the running horizontal offset, `maxH`
the running height of the current line; each wrap closes the current line,
and the final (possibly empty) line is always emitted. -/
def rowLinesGo (padpx left right : ℚ) (rw maxH : ℚ) : List (ℚ × ℚ) → List ℚ
  | [] => [maxH]
  | s :: rest =>
    if rw + padpx + s.1 > right then
      maxH :: rowLinesGo padpx left right (left + padpx + s.1) s.2 rest
    else
      rowLinesGo padpx left right (rw + padpx + s.1) (max maxH s.2) rest

/-- The per-line heights of a row layout, starting at the left content edge
with an empty first line. -/
def rowLines (padpx left right : ℚ) (sizes : List (ℚ × ℚ)) : List ℚ :=
  rowLinesGo padpx left right left 0 sizes

/-- The row loop's height accounting: the final `inner_reserved_height`
(after the post-loop `max_height + padding` step) is the initial one plus,
for each line of the wrap decomposition of the computed child sizes, that
line's height plus one inter-element padding. -/
theorem positionRowGo_lines (env : LayoutEnv) (zoom p centering : ℚ)
    (st : Positioner) (rw0 ih0 mh0 mw0 : ℚ) (l els' : List PosElement)
    (rw ih mh mw : ℚ) (st' : Positioner)
    (h : positionRowGo env zoom p centering st rw0 ih0 mh0 mw0 l
        = some (els', rw, ih, mh, mw, st')) :
    ih + mh + p * st.hidpi_scale * zoom
      = ih0 + ((rowLinesGo (p * st.hidpi_scale * zoom)
          (st.page_margin + centering)
          (st.screen_size.1 - st.page_margin - centering) rw0 mh0
          (childSizes els')).map
            (fun lh => lh + p * st.hidpi_scale * zoom)).sum := by
  induction l generalizing st rw0 ih0 mh0 mw0 els' rw ih mh mw st' with
  | nil =>
    rw [positionRowGo.eq_1] at h
    simp only [Option.some.injEq, Prod.mk.injEq] at h
    obtain ⟨hels, hrw, hih, hmh, hmw, hst⟩ := h
    rw [← hels, ← hih, ← hmh]
    simp only [childSizes, List.map_nil, rowLinesGo, List.map_cons, List.sum_cons,
      List.sum_nil]
    ring
  | cons e rest IHrest =>
    rw [positionRowGo.eq_2] at h
    split at h
    · exact Option.noConfusion h
    · rename_i r e' st₁ heq₁
      split at h
      · exact Option.noConfusion h
      · rename_i b hb
        have hst₁ := positionEl_state env zoom p st e e' st₁ heq₁
        have hscr : st₁.screen_size = st.screen_size := by rw [hst₁]
        have hpm : st₁.page_margin = st.page_margin := by rw [hst₁]
        have hhd : st₁.hidpi_scale = st.hidpi_scale := by rw [hst₁]
        simp only [] at h
        split at h
        · rename_i hcond
          split at h
          · exact Option.noConfusion h
          · rename_i r₂ rest' rw₂ ih₂ mh₂ mw₂ stf heq₂
            simp only [Option.some.injEq, Prod.mk.injEq] at h
            have hrec := IHrest st₁ _ _ _ _ _ _ _ _ _ _ heq₂
            rw [hscr, hpm, hhd] at hrec
            rw [hscr, hpm, hhd] at hcond
            rw [← h.1, ← h.2.2.1, ← h.2.2.2.1]
            simp only [childSizes, List.map_cons, boundsSize, PosElement.bounds_mk,
              rowLinesGo]
            rw [if_pos hcond]
            simp only [List.map_cons, List.sum_cons]
            simp only [childSizes] at hrec
            rw [hrec]
            ring
        · rename_i hcond
          split at h
          · exact Option.noConfusion h
          · rename_i r₂ rest' rw₂ ih₂ mh₂ mw₂ stf heq₂
            simp only [Option.some.injEq, Prod.mk.injEq] at h
            have hrec := IHrest st₁ _ _ _ _ _ _ _ _ _ _ heq₂
            rw [hscr, hpm, hhd] at hrec
            rw [hscr, hpm, hhd] at hcond
            rw [← h.1, ← h.2.2.1, ← h.2.2.2.1]
            simp only [childSizes, List.map_cons, boundsSize, PosElement.bounds_mk,
              rowLinesGo]
            rw [if_neg hcond]
            simp only [childSizes] at hrec
            rw [hrec]

/-- C6 (amended): for every Row, the rectangle's height equals the sum of
its line heights plus one inter-element padding gap per line — a gap after
each line of the wrap decomposition, i.e. wrap boundaries + 1 gaps — not one
gap per wrap boundary; in particular a Row of three images with exactly one
wrap boundary has height equal to two line-heights plus two padding gaps. -/
theorem C6_amended_row_height (env : LayoutEnv) (zoom p : ℚ) (st : Positioner)
    (els : List PosElement) (hs : ℚ) (ob : Option Rect)
    (e' : PosElement) (st' : Positioner)
    (h : positionEl env zoom p st (.mk (.row els hs) ob) = some (e', st')) :
    ∃ (els' : List PosElement) (b : Rect),
      e' = .mk (.row els' hs) (some b) ∧
      b.size.2
        = ((rowLines (p * st.hidpi_scale * zoom)
            (st.page_margin + max (st.screen_size.1 - st.page_width) 0 / 2)
            (st.screen_size.1 - st.page_margin
              - max (st.screen_size.1 - st.page_width) 0 / 2)
            (childSizes els')).map
              (fun lh => lh + p * st.hidpi_scale * zoom)).sum := by
  rw [positionEl.eq_5] at h
  split at h
  · exact Option.noConfusion h
  · rename_i r els₂ rw₂ ih₂ mh₂ mw₂ stf heq
    simp only [Option.some.injEq, Prod.mk.injEq] at h
    have hstf := positionRowGo_state env zoom p _ st _ _ _ _ els els₂ rw₂ ih₂ mh₂ mw₂
      stf heq
    have hlines := positionRowGo_lines env zoom p
      (max (st.screen_size.1 - st.page_width) 0 / 2) st
      (st.page_margin + max (st.screen_size.1 - st.page_width) 0 / 2) 0 0 0
      els els₂ rw₂ ih₂ mh₂ mw₂ stf heq
    refine ⟨els₂, _, h.1.symm, ?_⟩
    dsimp only
    rw [hstf]
    dsimp only
    rw [hlines, rowLines]
    ring

/-! ### Witnesses: each hypothesised claim theorem applied at a concrete
input, with every hypothesis discharged by evaluation -/

/-- An anchor-bearing text block used by witnesses. -/
def anchorTb : TextBox := ⟨[], false, 0, some "a"⟩

theorem C2_position_preserves_cursor_witness :
    positionEl envW 1 2 stW (.mk (.textBox anchorTb) none)
        = some (.mk (.textBox anchorTb) (some ⟨(0, 7), (30, 10)⟩),
            { stW with anchors := [("a", 7)] })
      ∧ ({ stW with anchors := [("a", 7)] } : Positioner).reserved_height
          = stW.reserved_height := by
  have hq : positionEl envW 1 2 stW (.mk (.textBox anchorTb) none)
      = some (.mk (.textBox anchorTb) (some ⟨(0, 7), (30, 10)⟩),
          { stW with anchors := [("a", 7)] }) := by
    rw [positionEl.eq_1]
    norm_num [envW, stW, anchorTb, insertAnchor]
  exact ⟨hq, C2_position_preserves_cursor envW 1 2 stW _ _ _ hq⟩

/-- An image whose intrinsic size is unknown. -/
def imgNone : Image := ⟨none, some Align.center⟩

theorem C10_image_none_size_witness :
    imgNone.size (min stW.screen_size.1 stW.page_width, stW.screen_size.2) 1 = none
      ∧ positionEl envW 1 2 stW (.mk (.image imgNone) none)
          = some (.mk (.image imgNone)
              (some (Rect.mk
                ((match imgNone.is_aligned with
                  | some Align.center => stW.screen_size.1 / 2
                  | _ => stW.page_margin
                      + max (stW.screen_size.1 - stW.page_width) 0 / 2),
                 stW.reserved_height)
                ((0 : ℚ), (0 : ℚ)))), stW) := by
  have hnone : imgNone.size (min stW.screen_size.1 stW.page_width, stW.screen_size.2) 1
      = none := rfl
  exact ⟨hnone, C10_image_none_size envW 1 2 stW imgNone none hnone⟩

theorem C8_amended_anchor_registry_witness :
    (⟨[], false, 0, some "a"⟩ : TextBox).is_anchor = some "a"
      ∧ ("b" : String) ≠ "a"
      ∧ ((positionEl envW 1 2 stA (.mk (.textBox ⟨[], false, 0, some "a"⟩) none)).map
            (fun r => r.2.anchors)
          = some (insertAnchor "a" stA.reserved_height stA.anchors)
        ∧ lookupAnchor "a" (insertAnchor "a" 3 [("a", 1), ("c", 2)]) = some 3
        ∧ lookupAnchor "b" (insertAnchor "a" 3 [("a", 1), ("c", 2)])
            = lookupAnchor "b" [("a", 1), ("c", 2)]
        ∧ (reposition envW 1 2 stA []).map (fun r => r.2.anchors)
            = some stA.anchors) := by
  refine ⟨rfl, by decide, ?_⟩
  exact C8_amended_anchor_registry envW 1 2 3 stA ⟨[], false, 0, some "a"⟩ none
    "a" "b" [("a", 1), ("c", 2)] rfl (by decide)

def hdrP : PosElement := .mk hdrE none
def tblP : PosElement := .mk tblE none

/-- Positioned header after a pass starting at top padding 2. -/
def hdrP' : PosElement := .mk hdrE (some ⟨(0, 2), (30, 10)⟩)

/-- Positioned table after the header, with the padding suppressed. -/
def tblP' : PosElement := .mk tblE (some ⟨(0, 12), (50, 20)⟩)

/-- The positioner after repositioning `[hdrP, tblP]` from `stW`. -/
def C1out : Positioner := ⟨(100, 200), 34, 1, 100, 0, []⟩

theorem reposition_hdr_tbl_eval :
    reposition envW 1 2 stW [hdrP, tblP] = some ([hdrP', tblP'], C1out) := by
  simp only [reposition, repoGo, positionEl.eq_1, positionEl.eq_4, envW, stW,
    hdrP, tblP, hdrE, tblE, PosElement.bounds_mk, PosElement.inner_mk, skipPadding,
    hdrP', tblP', C1out]
  norm_num [List.head?]

theorem C1_reposition_reserved_height_witness :
    noHiddenList [hdrP, tblP] = true
      ∧ reposition envW 1 2 stW [hdrP, tblP] = some ([hdrP', tblP'], C1out)
      ∧ C1out.reserved_height
          = 2 * stW.hidpi_scale * 1
            + totalHeights (2 * stW.hidpi_scale * 1) [hdrP', tblP'] := by
  have hvis : noHiddenList [hdrP, tblP] = true := rfl
  have h := reposition_hdr_tbl_eval
  exact ⟨hvis, h, C1_reposition_reserved_height envW 1 2 stW _ _ _ hvis h⟩

theorem C7_reposition_idempotent_witness :
    reposition envW 1 2 stW [hdrP, tblP] = some ([hdrP', tblP'], C1out)
      ∧ ∃ st₂ : Positioner,
          reposition envW 1 2 C1out [hdrP', tblP'] = some ([hdrP', tblP'], st₂)
            ∧ st₂.reserved_height = C1out.reserved_height := by
  have h := reposition_hdr_tbl_eval
  exact ⟨h, C7_reposition_idempotent envW 1 2 stW _ _ _ h⟩

/-- The three-image row of the scenario, before positioning. -/
def row3P : PosElement := .mk (.row [.mk imgE none, .mk imgE none, .mk imgE none] 1) none

/-- The three-image row after positioning: two on the first line, the third
wrapped to a second line. -/
def row3P' : PosElement :=
  .mk (.row [.mk imgE (some ⟨(0, 7), (40, 10)⟩),
             .mk imgE (some ⟨(42, 7), (40, 10)⟩),
             .mk imgE (some ⟨(0, 19), (40, 10)⟩)] 1)
    (some ⟨(0, 7), (84, 24)⟩)

theorem position_row3_eval :
    positionEl envW 1 2 stW row3P = some (row3P', stW) := by
  simp only [positionEl.eq_5, positionRowGo.eq_2, positionRowGo.eq_1, positionEl.eq_3,
    imgE, Image.size, envW, stW, row3P, row3P', PosElement.bounds_mk, PosElement.inner_mk]
  norm_num

theorem C5_row_children_within_width_witness :
    (0 : ℚ) ≤ 2 * stW.hidpi_scale * 1
      ∧ positionEl envW 1 2 stW row3P = some (row3P', stW)
      ∧ ∃ els' : List PosElement, row3P'.inner = .row els' 1 ∧
          ∀ c ∈ els', ∃ b : Rect, c.bounds = some b ∧
            (b.pos.1 + b.size.1
                ≤ stW.screen_size.1 - stW.page_margin
                  - max (stW.screen_size.1 - stW.page_width) 0 / 2 ∨
              (stW.screen_size.1 - stW.page_margin
                  - max (stW.screen_size.1 - stW.page_width) 0 / 2
                  - (stW.page_margin + max (stW.screen_size.1 - stW.page_width) 0 / 2)
                  < b.size.1 ∧
                b.pos.1 = stW.page_margin
                  + max (stW.screen_size.1 - stW.page_width) 0 / 2)) := by
  have hpad : (0 : ℚ) ≤ 2 * stW.hidpi_scale * 1 := by norm_num [stW]
  have h := position_row3_eval
  exact ⟨hpad, h,
    C5_row_children_within_width envW 1 2 stW _ 1 none _ _ hpad h⟩

theorem C6_amended_row_height_witness :
    positionEl envW 1 2 stW row3P = some (row3P', stW)
      ∧ (∃ (els' : List PosElement) (b : Rect),
          row3P' = .mk (.row els' 1) (some b) ∧
          b.size.2
            = ((rowLines (2 * stW.hidpi_scale * 1)
                (stW.page_margin + max (stW.screen_size.1 - stW.page_width) 0 / 2)
                (stW.screen_size.1 - stW.page_margin
                  - max (stW.screen_size.1 - stW.page_width) 0 / 2)
                (childSizes els')).map
                  (fun lh => lh + 2 * stW.hidpi_scale * 1)).sum)
      ∧ rowLines 2 0 100 [(40, 10), (40, 10), (40, 10)] = [10, 10]
      ∧ ((rowLines 2 0 100 [(40, 10), (40, 10), (40, 10)]).map
            (fun lh => lh + 2)).sum = 24 := by
  have h : positionEl envW 1 2 stW
      (.mk (.row [.mk imgE none, .mk imgE none, .mk imgE none] 1) none)
      = some (row3P', stW) := position_row3_eval
  refine ⟨position_row3_eval,
    C6_amended_row_height envW 1 2 stW _ 1 none _ _ h, ?_, ?_⟩
  · norm_num [rowLines, rowLinesGo]
  · norm_num [rowLines, rowLinesGo]

/-- The header positioned at the cursor height 7 of `stW`. -/
def hdr7 : PosElement := .mk hdrE (some ⟨(0, 7), (30, 10)⟩)

theorem position_hdr_eval :
    positionEl envW 1 2 stW (.mk hdrE none) = some (hdr7, stW) := by
  rw [show hdrE = .textBox ⟨[], true, 0, none⟩ from rfl, positionEl.eq_1]
  norm_num [envW, stW, hdr7, hdrE]

theorem C3_padding_suppressed_iff_witness :
    positionEl envW 1 2 stW (.mk hdrE none) = some (hdr7, stW)
      ∧ hdr7.bounds = some (Rect.mk (0, 7) (30, 10))
      ∧ (repoGo envW 1 2 stW (.mk hdrE none :: [tblP])
            = (repoGo envW 1 2
                { stW with reserved_height :=
                    (Rect.mk (0, 7) (30, 10)).pos.2 + (Rect.mk (0, 7) (30, 10)).size.2
                      + (if skipPadding hdr7 [tblP].head? then 0
                         else 2 * stW.hidpi_scale * 1) } [tblP]).map
                (fun r => (hdr7 :: r.1, r.2))
          ∧ (skipPadding hdr7 [tblP].head? = true ↔
              ((∃ tb : TextBox, hdr7.inner = .textBox tb ∧ tb.is_header = true)
                ∧ ∃ nx : PosElement, ([tblP] : List PosElement).head? = some nx ∧
                    ∃ t : Table, nx.inner = .table t ∧
                      (t.caption = none ∨ ∃ c : TextBox, t.caption = some c ∧
                        (c.texts = [] ∨ ∀ x ∈ c.texts, x.text.trim = ""))))) := by
  have h1 := position_hdr_eval
  have h2 : hdr7.bounds = some (Rect.mk (0, 7) (30, 10)) := rfl
  exact ⟨h1, h2, C3_padding_suppressed_iff envW 1 2 stW _ _ _ _ [tblP] h1 h2⟩

end Inlyne
